import Mathlib

/-!
Shallow embedding of `src/testParser.ts` of truid-app/action-junit-report.

JavaScript strings are modelled as Lean `String` (lists of unicode scalars),
JS `number` values that the code only ever holds as integers are modelled as
`Int`/`Nat`, `null`/`undefined`-able strings as `Option String`.  JS
truthiness on strings ("" and null/undefined are falsy) and on numbers
(0 and null are falsy) is modelled by explicit helper functions.  The
external collaborators (filesystem globbing in `resolvePath`, the
user-supplied `suiteRegex` engine, `path.join`, `process.env`) are fields of
an `Env` record; everything else is translated directly from the source.
-/

namespace JR

/-- JS `a || b` on nullable strings: `null`/`undefined` and `""` are falsy. -/
def jsOrOS (a b : Option String) : Option String :=
  match a with
  | some s => if s = "" then b else some s
  | none => b

/-- JS `a || b` where both operands are strings. -/
def jsOrStr (a b : String) : String :=
  if a = "" then b else a

/-- A nullable string coerced for use where the code has established truthiness. -/
def optStr (o : Option String) : String := o.getD ""

/-- Truthiness of a nullable string. -/
def osTruthy (o : Option String) : Bool :=
  match o with
  | some s => s ≠ ""
  | none => false

/-- Truthiness of a nullable number (`null` and `0` are falsy). -/
def jsTruthyIntOpt (o : Option Int) : Bool :=
  match o with
  | some n => n ≠ 0
  | none => false

/-- JS `o || d` on a nullable number: `d` when `o` is `null` or `0`. -/
def jsOrIntOpt (o : Option Int) (d : Int) : Int :=
  match o with
  | some n => if n = 0 then d else n
  | none => d

/-- The whitespace characters `parseInt` skips (and `trim` strips). -/
def isJsSpace (c : Char) : Bool :=
  c = ' ' ∨ c = '\t' ∨ c = '\n' ∨ c = '\r'

/-- Value of a decimal digit character. -/
def digitVal (c : Char) : Nat := c.toNat - '0'.toNat

/-- The number denoted by a list of decimal digit characters. -/
def natOfDigits (l : List Char) : Nat :=
  l.foldl (fun a c => a * 10 + digitVal c) 0

/-- Hex digit test, for `parseInt`'s `0x` form. -/
def isHexDigitChar (c : Char) : Bool :=
  c.isDigit ∨ ('a' ≤ c ∧ c ≤ 'f') ∨ ('A' ≤ c ∧ c ≤ 'F')

/-- Value of a hex digit character. -/
def hexVal (c : Char) : Nat :=
  if c.isDigit then digitVal c
  else if 'a' ≤ c ∧ c ≤ 'f' then c.toNat - 'a'.toNat + 10
  else c.toNat - 'A'.toNat + 10

/-- The number denoted by a list of hex digit characters. -/
def natOfHexDigits (l : List Char) : Nat :=
  l.foldl (fun a c => a * 16 + hexVal c) 0

/-- Whether a character list starts with `0x` or `0X`. -/
def isHexPrefixed (l : List Char) : Bool :=
  match l with
  | c0 :: c1 :: _ => c0 = '0' ∧ (c1 = 'x' ∨ c1 = 'X')
  | _ => false

/-- JS `parseInt(s)` (no radix argument): skip leading whitespace, read an
optional sign, then either a `0x`/`0X` hex literal or a maximal run of
decimal digits; `none` models `NaN`. -/
def jsParseIntChars (l : List Char) : Option Int :=
  let l1 := l.dropWhile isJsSpace
  let sl : Int × List Char :=
    match l1 with
    | c :: r => if c = '-' then (-1, r) else if c = '+' then (1, r) else (1, l1)
    | [] => (1, [])
  let sgn := sl.1
  let l2 := sl.2
  if isHexPrefixed l2 then
    let hs := (l2.drop 2).takeWhile isHexDigitChar
    if hs = [] then none else some (sgn * (natOfHexDigits hs : Int))
  else
    let ds := l2.takeWhile Char.isDigit
    if ds = [] then none else some (sgn * (natOfDigits ds : Int))

/-- `safeParseInt` (testParser.ts:99): `null` for a falsy input string and
for `NaN`, otherwise the parsed value. -/
def safeParseInt (line : Option String) : Option Int :=
  match line with
  | none => none
  | some s => if s = "" then none else jsParseIntChars s.data

/-- JS `trim()` on a character list. -/
def trimChars (l : List Char) : List Char :=
  ((l.dropWhile isJsSpace).reverse.dropWhile isJsSpace).reverse

/-- JS `s.trim()`. -/
def jsTrim (s : String) : String := String.mk (trimChars s.data)

/-- JS `s.split(sep)` for a single-character separator, on character lists.
Always returns at least one (possibly empty) piece. -/
def jsSplitChar (sep : Char) : List Char → List (List Char)
  | [] => [[]]
  | c :: r =>
    if c = sep then [] :: jsSplitChar sep r
    else
      match jsSplitChar sep r with
      | h :: t => (c :: h) :: t
      | [] => [[c]]

/-- First index at which `pat` occurs in `s`, scanning left to right. -/
def firstMatchAt (s pat : List Char) : Option Nat :=
  match s with
  | [] => if pat = [] then some 0 else none
  | _ :: r =>
    if s.take pat.length = pat then some 0
    else (firstMatchAt r pat).map (· + 1)

/-- JS `s.replace(pat, rep)` with a *string* pattern: replaces only the first
occurrence (testParser.ts uses this shape at lines 68, 372, 385-388). -/
def replFirstChars (s pat rep : List Char) : List Char :=
  match s with
  | [] => if pat = [] then rep else []
  | c :: r =>
    if s.take pat.length = pat then rep ++ s.drop pat.length
    else c :: replFirstChars r pat rep

/-- JS `s.replace(pat, rep)` with a string pattern, on `String`. -/
def jsReplaceFirst (s pat rep : String) : String :=
  String.mk (replFirstChars s.data pat.data rep.data)

/-- The characters escaped by the regex-escape at testParser.ts:68. -/
def isRegexMeta (c : Char) : Bool :=
  c = '.' ∨ c = '*' ∨ c = '+' ∨ c = '?' ∨ c = '^' ∨ c = '$' ∨
  c = Char.ofNat 123 ∨ c = Char.ofNat 125 ∨ c = '(' ∨ c = ')' ∨
  c = '|' ∨ c = '[' ∨ c = ']' ∨ c = '\\'

/-- `fileName.replace(/[.*+?^${}()|[\]\\]/g, '\\$&')`: prepend a backslash to
every regex metacharacter. -/
def jsEscapeRegex (s : String) : String :=
  String.mk (s.data.foldr (fun c acc => if isRegexMeta c then '\\' :: c :: acc else c :: acc) [])

/-- The escaped file name of testParser.ts:68: regex-escape, then replace the
first `::` with `/`. -/
def escapedFileNameOf (fileName : String) : String :=
  jsReplaceFirst (jsEscapeRegex fileName) "::" "/"

/-- Undo backslash-escaping: the literal character sequence an escaped
regex fragment matches. -/
def regexUnescape : List Char → List Char
  | [] => []
  | '\\' :: c :: r => c :: regexUnescape r
  | c :: r => c :: regexUnescape r

/-!
The dynamically built regex of testParser.ts:70,
`new RegExp(` [^ ]*${escapedFileName}.*?:\d+`, 'g')`, applied with
`String.match`.  `escapedFileName` is a regex-escaped literal, so the
pattern is: a space, a greedy run of non-space characters, the literal,
then a lazy run of non-newline characters up to a colon followed by a
greedy non-empty digit run.  The matcher below implements exactly this
pattern's backtracking semantics over character lists.
-/

/-- Match `.*?:\d+` at the head of `l` (lazy dot, `.` excludes newline,
greedy digits); returns the number of characters consumed. -/
def lazyColonDigits : List Char → Option Nat
  | [] => none
  | c :: r =>
    if c = ':' then
      match r with
      | [] => none
      | d :: r' =>
        if d.isDigit then some (2 + (r'.takeWhile Char.isDigit).length)
        else (lazyColonDigits r).map (· + 1)
    else if c = '\n' then none
    else (lazyColonDigits r).map (· + 1)

/-- Whether the literal `pat` occurs at index `i` of `s`. -/
def litAt (s pat : List Char) (i : Nat) : Bool :=
  (s.drop i).take pat.length = pat

/-- Try the literal at index `m` followed by `.*?:\d+`; returns the end index
of the whole match. -/
def tryAt (s pat : List Char) (m : Nat) : Option Nat :=
  if litAt s pat m then
    (lazyColonDigits (s.drop (m + pat.length))).map (fun t => m + pat.length + t)
  else none

/-- Backtracking for the greedy `[^ ]*` after the space at index `i`: try
consuming `k` non-space characters (largest first), i.e. the literal at
`i + 1 + k` down to `i + 1`. -/
def greedyBack (s pat : List Char) (i : Nat) : Nat → Option Nat
  | 0 => tryAt s pat (i + 1)
  | k + 1 =>
    match tryAt s pat (i + 1 + (k + 1)) with
    | some e => some e
    | none => greedyBack s pat i k

/-- Match the whole pattern ` [^ ]*<pat>.*?:\d+` starting at index `i`;
returns the end index of the match. -/
def matchOneAt (s pat : List Char) (i : Nat) : Option Nat :=
  match s.get? i with
  | some c =>
    if c = ' ' then
      greedyBack s pat i (((s.drop (i + 1)).takeWhile (fun x => x ≠ ' ')).length)
    else none
  | none => none

/-- Global scan of `String.match(re, 'g')`: leftmost matches, resuming after
each match's end.  `fuel` bounds the number of scan steps; every step either
advances the position or stops, so `s.length + 2` steps always suffice. -/
def jsMatchAllGo (s pat : List Char) : Nat → Nat → List (List Char)
  | _, 0 => []
  | i, fuel + 1 =>
    match matchOneAt s pat i with
    | some e => ((s.drop i).take (e - i)) :: jsMatchAllGo s pat e fuel
    | none => if i < s.length then jsMatchAllGo s pat (i + 1) fuel else []

/-- JS `output.match(new RegExp(` [^ ]*${pat}.*?:\d+`, 'g'))`: `none` models
the `null` returned when there is no match. -/
def jsMatchAll (pat s : List Char) : Option (List (List Char)) :=
  let ms := jsMatchAllGo s pat 0 (s.length + 2)
  if ms = [] then none else some ms

/-- `Position` (testParser.ts:38). -/
structure Position where
  fileName : String
  line : Int
deriving Repr, DecidableEq

/-- `className.split('.').slice(-1)[0]`: the last dot-segment. -/
def classLeaf (className : String) : String :=
  String.mk ((jsSplitChar '.' className.data).getLastD [])

/-- `let fileName = file ? file : className.split('.').slice(-1)[0]`
(testParser.ts:61). -/
def resolvedFileName0 (file : Option String) (className : String) : String :=
  match file with
  | some f => if f ≠ "" then f else classLeaf className
  | none => classLeaf className

/-- `s.endsWith(pat)`. -/
def strEndsWith (s pat : String) : Bool :=
  s.data.reverse.take pat.data.length = pat.data.reverse

/-- `resolveFileAndLine` (testParser.ts:55-94), instrumented: the `Bool` is
`true` exactly when the corpus search past the early return at line 65 was
entered.  The function is total, modelling that the source never throws (its
`try`/`catch` falls back to a best-effort `Position`). -/
def resolveFileAndLineX (file line : Option String) (className output : String) :
    Position × Bool :=
  let fileName := resolvedFileName0 file className
  let lineNumber := safeParseInt line
  if fileName ≠ "" ∧ jsTruthyIntOpt lineNumber then
    (⟨fileName, lineNumber.getD 0⟩, false)
  else
    let escapedFileName := escapedFileNameOf fileName
    let lit := regexUnescape escapedFileName.data
    match jsMatchAll lit output.data with
    | none => (⟨fileName, jsOrIntOpt lineNumber 1⟩, true)
    | some ms =>
      let lastItem := ms.getLastD []
      let lineTokens := jsSplitChar ':' lastItem
      -- `line = lineTokens.pop() || '0'`
      let lineTok := match lineTokens.getLast? with
        | some t => if t = [] then ['0'] else t
        | none => ['0']
      let lineTokens := lineTokens.dropLast
      -- `const lineNumberPrefix = lineTokens.pop() || ''`
      let pfxTok := (lineTokens.getLast?).getD []
      let fileName :=
        if strEndsWith (String.mk pfxTok) ".rs" then
          String.mk ((jsSplitChar ' ' pfxTok).getLastD [])
        else fileName
      (⟨fileName, jsOrIntOpt (safeParseInt (some (String.mk lineTok))) (-1)⟩, true)

/-- `resolveFileAndLine` (testParser.ts:55). -/
def resolveFileAndLine (file line : Option String) (className output : String) :
    Position :=
  (resolveFileAndLineX file line className output).1

/-!
The document model.  `xml-js`'s compact output as the parser consumes it: a
field of the untyped tree is either absent (`undef`), a single object
(`single`) or an array (`arr`); the code re-checks this shape with
`Array.isArray` at each use site.
-/

/-- A JSON field that is absent, a single node or an array of nodes. -/
inductive JVal (α : Type) : Type where
  | undef : JVal α
  | single : α → JVal α
  | arr : List α → JVal α

/-- JS truthiness of such a field: absent is falsy, an object or an array
(even an empty one) is truthy. -/
def jvTruthy {α : Type} : JVal α → Bool
  | JVal.undef => false
  | _ => true

/-- `Array.isArray(x) ? x[0] : x`, i.e. `(Array.isArray(x) ? x : [x])[0]`
with absence propagated (testParser.ts:305-311, 314-320). -/
def jvFirst {α : Type} : JVal α → Option α
  | JVal.undef => none
  | JVal.single x => some x
  | JVal.arr xs => xs.head?

/-- `Array.isArray(x) ? x : x ? [x] : []` (testParser.ts:265-269). -/
def jvList {α : Type} : JVal α → List α
  | JVal.undef => []
  | JVal.single x => [x]
  | JVal.arr xs => xs

/-- The `_attributes` object of a `testsuite`/`testcase` node.  `name` is
required: the code reads it unguarded (testParser.ts:275, 344, 354); the
other attributes are tested for truthiness or presence first. -/
structure XAttrs where
  name : String
  classname : Option String
  status : Option String
  file : Option String
  line : Option String
  time : Option String

/-- `_attributes` of a `failure`/`error` payload node. -/
structure XPayloadAttrs where
  message : Option String
  file : Option String
  line : Option String

/-- A `failure`, `error` or `system-out` payload node. -/
structure XPayload where
  _cdata : Option String
  _text : Option String
  _attributes : Option XPayloadAttrs

/-- A `testcase` node.  `skipped` is the truthiness of its `skipped` child
(the code only ever tests it for truthiness); `systemOut` is the
`'system-out'` field. -/
structure XTestCase where
  _attributes : XAttrs
  failure : JVal XPayload
  error : Option XPayload
  skipped : Bool
  systemOut : JVal XPayload

mutual
/-- A node `parseSuite` is called on: the whole report document or one
`testsuite` element.  `testsuites` is the optional wrapper object, holding
its own `testsuite` field. -/
inductive XSuite : Type where
  | mk : Option XAttrs → SuiteField → Option SuiteField → JVal XTestCase → XSuite

/-- A `testsuite` field: absent, one element, or an array whose entries may
be null (the code guards each entry with `if (!testsuite)`). -/
inductive SuiteField : Type where
  | undef : SuiteField
  | single : XSuite → SuiteField
  | arr : List (Option XSuite) → SuiteField
end

/-- `suite._attributes`. -/
def XSuite._attributes : XSuite → Option XAttrs
  | XSuite.mk a _ _ _ => a

/-- `suite.testsuite`. -/
def XSuite.testsuite : XSuite → SuiteField
  | XSuite.mk _ t _ _ => t

/-- `suite.testsuites` (the wrapper's own `testsuite` field inside). -/
def XSuite.testsuites : XSuite → Option SuiteField
  | XSuite.mk _ _ t _ => t

/-- `suite.testcase`. -/
def XSuite.testcase : XSuite → JVal XTestCase
  | XSuite.mk _ _ _ t => t

/-- Truthiness of a `testsuite` field (an object or array is truthy). -/
def sfTruthy : SuiteField → Bool
  | SuiteField.undef => false
  | _ => true

/-- `annotation_level` values (testParser.ts:31). -/
inductive AnnLevel : Type where
  | failure : AnnLevel
  | notice : AnnLevel
  | warning : AnnLevel
deriving DecidableEq, Repr

/-- `status` values (testParser.ts:32). -/
inductive AnnStatus : Type where
  | success : AnnStatus
  | failure : AnnStatus
  | skipped : AnnStatus
deriving DecidableEq, Repr

/-- `Annotation` (testParser.ts:25-36). -/
structure Annotation where
  path : String
  start_line : Int
  end_line : Int
  start_column : Nat
  end_column : Nat
  annotation_level : AnnLevel
  status : AnnStatus
  title : String
  message : String
  raw_details : String
deriving DecidableEq, Repr

/-- `Transformer` (testParser.ts:43). -/
structure Transformer where
  searchValue : String
  replaceValue : String

/-- The configuration arguments threaded through `parseFile`/`parseSuite`. -/
structure Config where
  suiteRegex : String
  annotatePassed : Bool
  checkRetries : Bool
  excludeSources : List String
  checkTitleTemplate : Option String
  testFilesPrefix : String
  transformer : List Transformer
  followSymlink : Bool
  annotationsLimit : Int
  truncateStackTraces : Bool

/-- The external collaborators: `resolvePath` (filesystem globbing,
testParser.ts:113-131), `path.join`, the regex engine applied to the
user-supplied `suiteRegex` (`name.match(suiteRegex)`, `null` when it does
not match), and `process.env['GITHUB_WORKSPACE']`. -/
structure Env where
  resolvePathFn : String → List String → Bool → String
  joinPathFn : String → String → String
  suiteMatchFn : String → String → Option String
  githubWorkspace : Option String

/-- `InternalTestResult` (testParser.ts:8-12). -/
structure InternalTestResult where
  totalCount : Nat
  skipped : Nat
  annotations : List Annotation
deriving Repr

/-- `TestResult` (testParser.ts:14-23); `passed` is computed by subtraction
so it is modelled as an `Int`. -/
structure TestResult where
  checkName : String
  summary : String
  totalCount : Nat
  skipped : Nat
  failed : Nat
  passed : Int
  foundFiles : Nat
  annotations : List Annotation

/-- Modelled from the spec: `applyTransformer` lives in `src/utils.ts`,
which is not among the staged sources; the spec says transformer rules are
"applied as ordered string/regex substitutions to a resolved file name", so
it is modelled as a (first-occurrence) string substitution. -/
def applyTransformer (t : Transformer) (s : String) : String :=
  jsReplaceFirst s t.searchValue t.replaceValue

/-- `templateVar` (testParser.ts:186): wraps a name in double braces. -/
def templateVar (v : String) : String :=
  "\x7b\x7b" ++ v ++ "\x7d\x7d"

/-- The emoji code-point ranges of `escapeEmoji` (testParser.ts:515-519). -/
def emojiRanges : List (Nat × Nat) :=
  [(0x1f300, 0x1f5ff), (0x1f900, 0x1f9ff), (0x1f600, 0x1f64f),
   (0x1f680, 0x1f6ff), (0x2600, 0x26ff), (0x2700, 0x27bf),
   (0x1f1e6, 0x1f1ff), (0x1f191, 0x1f251), (0x1f004, 0x1f004),
   (0x1f0cf, 0x1f0cf), (0x1f170, 0x1f171), (0x1f17e, 0x1f17f),
   (0x1f18e, 0x1f18e), (0x3030, 0x3030), (0x2b50, 0x2b50),
   (0x2b55, 0x2b55), (0x2934, 0x2935), (0x2b05, 0x2b07),
   (0x2b1b, 0x2b1c), (0x3297, 0x3297), (0x3299, 0x3299),
   (0x303d, 0x303d), (0xa9, 0xa9), (0xae, 0xae), (0x2122, 0x2122),
   (0x23f3, 0x23f3), (0x24c2, 0x24c2), (0x23e9, 0x23ef),
   (0x25b6, 0x25b6), (0x23f8, 0x23fa)]

/-- Whether a character falls in one of the emoji ranges. -/
def isEmojiChar (c : Char) : Bool :=
  emojiRanges.any (fun p => p.1 ≤ c.toNat ∧ c.toNat ≤ p.2)

/-- `escapeEmoji` (testParser.ts:515): strip emoji code points. -/
def escapeEmoji (input : String) : String :=
  String.mk (input.data.filter (fun c => !isEmojiChar c))

/-- `testcase.failure || testcase.error` as a boolean: both the `testFailure`
classification (testParser.ts:298) and the `failed` test of the retry
reconciliation (testParser.ts:278-279). -/
def tcFailed (t : XTestCase) : Bool :=
  jvTruthy t.failure || t.error.isSome

/-- `testcase.skipped || status === 'disabled' || status === 'ignored'`
(testParser.ts:299-300). -/
def tcSkip (t : XTestCase) : Bool :=
  t.skipped || (t._attributes.status == some "disabled") ||
    (t._attributes.status == some "ignored")

/-- `annotations.filter(a => a.annotation_level === 'failure').length`
(testParser.ts:497). -/
def countFailures (anns : List Annotation) : Nat :=
  (anns.filter (fun a => a.annotation_level == AnnLevel.failure)).length

/-- The count taken against the annotations cap
(testParser.ts:259, 424, 489): failure-level annotations, or all of them
when `annotatePassed` is set. -/
def limitCount (annotatePassed : Bool) (anns : List Annotation) : Nat :=
  (anns.filter (fun a => (a.annotation_level == AnnLevel.failure) || annotatePassed)).length

/-- The cap test `annotationsLimit > 0 && count >= annotationsLimit`
guarding each early return (testParser.ts:258-262, 423-428, 488-493). -/
def limitReached (annotationsLimit : Int) (annotatePassed : Bool)
    (anns : List Annotation) : Bool :=
  decide (0 < annotationsLimit) &&
    decide (annotationsLimit ≤ (limitCount annotatePassed anns : Int))

/-- `testcaseMap.get(key)` on the insertion-ordered map of the retry
reconciliation (testParser.ts:273). -/
def mapGet (m : List (String × XTestCase)) (k : String) : Option XTestCase :=
  (m.find? (fun e => e.1 == k)).map (fun e => e.2)

/-- `testcaseMap.set(key, v)`: replaces in place when the key exists (the JS
`Map` keeps the original insertion position), else appends. -/
def mapSet : List (String × XTestCase) → String → XTestCase → List (String × XTestCase)
  | [], k, v => [(k, v)]
  | (k', v') :: rest, k, v =>
    if k' == k then (k', v) :: rest else (k', v') :: mapSet rest k v

/-- The retry-reconciliation loop (testParser.ts:273-291). -/
def dedupGo : List (String × XTestCase) → List XTestCase → List (String × XTestCase)
  | m, [] => m
  | m, t :: rest =>
    let key := t._attributes.name
    match mapGet m key with
    | some prev =>
      let failed := tcFailed t
      let previousFailed := tcFailed prev
      if failed && !previousFailed then dedupGo m rest
      else if !failed && previousFailed then dedupGo (mapSet m key t) rest
      else dedupGo m rest
    | none => dedupGo (mapSet m key t) rest

/-- `Array.from(testcaseMap.values())` after the reconciliation loop
(testParser.ts:271-293). -/
def dedupTestcases (ts : List XTestCase) : List XTestCase :=
  (dedupGo [] ts).map (fun e => e.2)

/-- Join character lists with a separator list (JS `Array.join`). -/
def intercalChars (sep : List Char) : List (List Char) → List Char
  | [] => []
  | [x] => x
  | x :: xs => x ++ sep ++ intercalChars sep xs

/-- The loop body over one test case (testParser.ts:295-421): classify,
extract stack/system-out/message, resolve position and path, build the
title, and assemble the pushed `Annotation`. -/
def makeAnnotationOf (env : Env) (cfg : Config) (suiteName : String)
    (suiteAttrs : Option XAttrs) (t : XTestCase) : Annotation :=
  let testFailure := tcFailed t
  let skip := tcSkip t
  let failed := testFailure && !skip
  let success := !testFailure
  let failure0 := jvFirst t.failure
  let systemOut0 := jvFirst t.systemOut
  let stackTrace := jsTrim (optStr (jsOrOS (failure0.bind (fun p => p._cdata))
    (jsOrOS (failure0.bind (fun p => p._text))
      (jsOrOS (t.error.bind (fun p => p._cdata)) (t.error.bind (fun p => p._text))))))
  let stackTraceMessage :=
    if cfg.truncateStackTraces then
      String.mk (intercalChars ['\n'] ((jsSplitChar '\n' stackTrace.data).take 2))
    else stackTrace
  let sysout : Option String :=
    (jsOrOS (systemOut0.bind (fun p => p._cdata)) (systemOut0.bind (fun p => p._text))).map jsTrim
  let message := jsTrim (jsOrStr
    (optStr (failure0.bind (fun p => p._attributes.bind (fun a => a.message))))
    (jsOrStr (optStr (t.error.bind (fun p => p._attributes.bind (fun a => a.message))))
      (jsOrStr stackTraceMessage t._attributes.name)))
  let fileTok := jsOrOS t._attributes.file
    (jsOrOS (failure0.bind (fun p => p._attributes.bind (fun a => a.file)))
      (suiteAttrs.bind (fun a => a.file)))
  let lineTok := jsOrOS t._attributes.line
    (jsOrOS (failure0.bind (fun p => p._attributes.bind (fun a => a.line)))
      (suiteAttrs.bind (fun a => a.line)))
  let classNameArg :=
    if osTruthy t._attributes.classname then optStr t._attributes.classname
    else t._attributes.name
  let pos := resolveFileAndLine fileTok lineTok classNameArg stackTrace
  let transformedFileName :=
    cfg.transformer.foldl (fun acc r => applyTransformer r acc) pos.fileName
  let resolvedPath0 :=
    if failed || (cfg.annotatePassed && success) then
      env.resolvePathFn transformedFileName cfg.excludeSources cfg.followSymlink
    else transformedFileName
  let resolvedPath1 :=
    match env.githubWorkspace with
    | some w => if w ≠ "" then jsReplaceFirst resolvedPath0 (w ++ "/") "" else resolvedPath0
    | none => resolvedPath0
  let defaultTitle :=
    if pos.fileName ≠ t._attributes.name then
      (if suiteName ≠ "" then
        pos.fileName ++ "." ++ suiteName ++ "/" ++ t._attributes.name
      else pos.fileName ++ "." ++ t._attributes.name)
    else
      (if suiteName ≠ "" then suiteName ++ "/" ++ t._attributes.name
       else t._attributes.name)
  let title :=
    match cfg.checkTitleTemplate with
    | some tpl =>
      if tpl ≠ "" then
        let fileName := if pos.fileName ≠ t._attributes.name then pos.fileName else ""
        let baseClassName :=
          if osTruthy t._attributes.classname then optStr t._attributes.classname
          else t._attributes.name
        let className := classLeaf baseClassName
        jsReplaceFirst (jsReplaceFirst (jsReplaceFirst (jsReplaceFirst tpl
          (templateVar "FILE_NAME") fileName)
          (templateVar "SUITE_NAME") suiteName)
          (templateVar "TEST_NAME") t._attributes.name)
          (templateVar "CLASS_NAME") className
      else defaultTitle
    | none => defaultTitle
  let resolvedPath :=
    if cfg.testFilesPrefix ≠ "" then env.joinPathFn cfg.testFilesPrefix resolvedPath1
    else resolvedPath1
  let rawDetails := stackTrace ++
    (match sysout with
     | some s => if s ≠ "" then "\n\n" ++ s else ""
     | none => "")
  { path := resolvedPath,
    start_line := pos.line,
    end_line := pos.line,
    start_column := 0,
    end_column := 0,
    annotation_level := if success || skip then AnnLevel.notice else AnnLevel.failure,
    status := if skip then AnnStatus.skipped
      else if success then AnnStatus.success else AnnStatus.failure,
    title := escapeEmoji title,
    message := escapeEmoji message,
    raw_details := escapeEmoji rawDetails }

/-- The `for (const testcase of testcases)` loop (testParser.ts:295-429):
count, push the annotation, and stop (`true`) when the cap is reached. -/
def casesLoopF (env : Env) (cfg : Config) (suiteName : String)
    (suiteAttrs : Option XAttrs) :
    List XTestCase → InternalTestResult → InternalTestResult × Bool
  | [], acc => (acc, false)
  | t :: rest, acc =>
    let acc' : InternalTestResult :=
      { totalCount := acc.totalCount + 1,
        skipped := acc.skipped + (if tcSkip t then 1 else 0),
        annotations := acc.annotations ++ [makeAnnotationOf env cfg suiteName suiteAttrs t] }
    if limitReached cfg.annotationsLimit cfg.annotatePassed acc'.annotations then
      (acc', true)
    else casesLoopF env cfg suiteName suiteAttrs rest acc'

/-- `suiteName` computation per child suite (testParser.ts:226-236).  The
code reads `testsuite._attributes.name` unguarded; absent attributes are
modelled as the empty name. -/
def computeSuiteName (env : Env) (cfg : Config) (parentName : String)
    (ts : XSuite) : String :=
  if cfg.suiteRegex ≠ "" then
    let nm := (ts._attributes.map (fun a => a.name)).getD ""
    let s1 :=
      if parentName ≠ "" then parentName ++ "/" ++ nm
      else if cfg.suiteRegex ≠ "*" then optStr (env.suiteMatchFn nm cfg.suiteRegex)
      else ""
    if s1 = "" then nm else s1
  else ""

/-- The list of suite elements (testParser.ts:213-219): the direct
`testsuite` field if truthy, else the wrapper's; a non-array value is
wrapped in a one-element array, so an absent wrapped field becomes
`[undefined]`. -/
def normalizedSuites (s : XSuite) : List (Option XSuite) :=
  let fieldList : SuiteField → List (Option XSuite) := fun f =>
    match f with
    | SuiteField.undef => [none]
    | SuiteField.single t => [some t]
    | SuiteField.arr xs => xs
  match s.testsuite with
  | SuiteField.undef =>
    (match s.testsuites with
     | some f => fieldList f
     | none => [none])
  | f => fieldList f

/-- The `for (const testsuite of testsuites)` loop (testParser.ts:221-430),
parametrised by the recursive call `rec` (testParser.ts:238-251): a falsy
element returns the accumulator; otherwise recurse, fold the result in,
skip suites with no `testcase`, test the cap, reconcile retries and run the
case loop; a cap stop inside the case loop returns from the whole call. -/
def suitesLoopF (env : Env) (cfg : Config)
    (rec : XSuite → String → InternalTestResult) :
    List (Option XSuite) → String → InternalTestResult → InternalTestResult
  | [], _, acc => acc
  | none :: _, _, acc => acc
  | some ts :: rest, parentName, acc =>
    let suiteName := computeSuiteName env cfg parentName ts
    let res := rec ts suiteName
    let acc : InternalTestResult :=
      { totalCount := acc.totalCount + res.totalCount,
        skipped := acc.skipped + res.skipped,
        annotations := acc.annotations ++ res.annotations }
    if !jvTruthy ts.testcase then suitesLoopF env cfg rec rest parentName acc
    else if limitReached cfg.annotationsLimit cfg.annotatePassed acc.annotations then acc
    else
      let testcases := jvList ts.testcase
      let testcases := if cfg.checkRetries then dedupTestcases testcases else testcases
      let r := casesLoopF env cfg suiteName (ts._attributes) testcases acc
      if r.2 then r.1 else suitesLoopF env cfg rec rest parentName r.1

/-- One invocation of `parseSuite` (testParser.ts:190-432) with its
recursion abstracted: the guard for a node with neither `testsuite` nor
`testsuites` (lines 209-211), then the suites loop. -/
def parseSuiteBody (env : Env) (cfg : Config)
    (rec : XSuite → String → InternalTestResult) (s : XSuite)
    (parentName : String) : InternalTestResult :=
  if !sfTruthy s.testsuite && s.testsuites.isNone then ⟨0, 0, []⟩
  else suitesLoopF env cfg rec (normalizedSuites s) parentName ⟨0, 0, []⟩

/-- `parseSuite` with explicit recursion depth.  Exhausted fuel returns the
empty result — the same value an actual leaf returns, so any fuel at least
the nesting depth computes the source's value. -/
def parseSuiteGo (env : Env) (cfg : Config) : Nat → XSuite → String → InternalTestResult
  | 0, s, parentName =>
    parseSuiteBody env cfg (fun _ _ => ⟨0, 0, []⟩) s parentName
  | fuel + 1, s, parentName =>
    parseSuiteBody env cfg (parseSuiteGo env cfg fuel) s parentName

mutual
/-- Structural size of a suite node, used as recursion fuel: it strictly
bounds the nesting depth. -/
def suiteFuel : XSuite → Nat
  | XSuite.mk _ ts tss _ =>
    1 + sfFuel ts + (match tss with | some f => sfFuel f | none => 0)

/-- Structural size of a `testsuite` field. -/
def sfFuel : SuiteField → Nat
  | SuiteField.undef => 0
  | SuiteField.single t => suiteFuel t
  | SuiteField.arr xs => sfListFuel xs

/-- Structural size of a suite array. -/
def sfListFuel : List (Option XSuite) → Nat
  | [] => 0
  | none :: r => sfListFuel r
  | some t :: r => suiteFuel t + sfListFuel r
end

/-- `parseSuite` (testParser.ts:190): the structural size of the node bounds
its nesting depth. -/
def parseSuite (env : Env) (cfg : Config) (s : XSuite) (parentName : String) :
    InternalTestResult :=
  parseSuiteGo env cfg (suiteFuel s) s parentName

/-- `parseFile` (testParser.ts:140-184): its argument is the outcome of the
external read-and-XML-parse step; `none` models the caught parse failure,
which contributes the empty result (lines 159-168). -/
def parseFile (env : Env) (cfg : Config) (report : Option XSuite) :
    InternalTestResult :=
  match report with
  | none => ⟨0, 0, []⟩
  | some r => parseSuite env cfg r ""

/-- The mutable state of `parseTestReports`' file loop
(testParser.ts:458-461). -/
structure AggState where
  annotations : List Annotation
  totalCount : Nat
  skipped : Nat
  foundFiles : Nat

/-- The `for await (const file of ...)` loop (testParser.ts:462-494): each
element is one matched report file's parse outcome; a zero-count file is
skipped, and the loop breaks once the cap is reached. -/
def reportsLoop (env : Env) (cfg : Config) :
    List (Option XSuite) → AggState → AggState
  | [], st => st
  | f :: rest, st =>
    let st : AggState := { st with foundFiles := st.foundFiles + 1 }
    let r := parseFile env cfg f
    if r.totalCount = 0 then reportsLoop env cfg rest st
    else
      let st : AggState :=
        { st with
          totalCount := st.totalCount + r.totalCount,
          skipped := st.skipped + r.skipped,
          annotations := st.annotations ++ r.annotations }
      if limitReached cfg.annotationsLimit cfg.annotatePassed st.annotations then st
      else reportsLoop env cfg rest st

/-- `parseTestReports` (testParser.ts:441-510): fold all report files, then
derive `failed` and `passed` (lines 496-509). -/
def parseTestReports (env : Env) (cfg : Config) (checkName summary : String)
    (files : List (Option XSuite)) : TestResult :=
  let st := reportsLoop env cfg files ⟨[], 0, 0, 0⟩
  let failed := countFailures st.annotations
  { checkName := checkName,
    summary := summary,
    totalCount := st.totalCount,
    skipped := st.skipped,
    failed := failed,
    passed := (st.totalCount : Int) - (failed : Int) - (st.skipped : Int),
    foundFiles := st.foundFiles,
    annotations := st.annotations }

/-- Spec-side comparison for the reconciliation's ordering: each distinct
name in order of first occurrence. -/
def firstOccurrencesGo (seen : List String) : List String → List String
  | [] => []
  | x :: r =>
    if seen.contains x then firstOccurrencesGo seen r
    else x :: firstOccurrencesGo (x :: seen) r

/-- First-occurrence order of the distinct elements of a list. -/
def firstOccurrences (l : List String) : List String :=
  firstOccurrencesGo [] l

/-- A report document with one `testsuite` carrying the given `testcase`
field: `{testsuite: {testcase: cases}}`. -/
def mkCasesReport (cases : JVal XTestCase) : XSuite :=
  XSuite.mk none (SuiteField.single (XSuite.mk none SuiteField.undef none cases)) none JVal.undef

/-- The document an empty `<testsuites/>` wrapper parses to:
`{testsuites: {}}`, whose inner `testsuite` field is absent. -/
def emptyTestsuitesReport : XSuite :=
  XSuite.mk none SuiteField.undef (some SuiteField.undef) JVal.undef

/-- A sample environment: path resolution and joining as identity-like
functions, no suite-regex matches, no workspace prefix. -/
def sampleEnv : Env :=
  { resolvePathFn := fun s _ _ => s,
    joinPathFn := fun a b => a ++ "/" ++ b,
    suiteMatchFn := fun _ _ => none,
    githubWorkspace := none }

/-- The action's default configuration (testParser.ts:140-151). -/
def sampleCfg : Config :=
  { suiteRegex := "",
    annotatePassed := false,
    checkRetries := false,
    excludeSources := ["/build/", "/__pycache__/"],
    checkTitleTemplate := none,
    testFilesPrefix := "",
    transformer := [],
    followSymlink := false,
    annotationsLimit := -1,
    truncateStackTraces := true }

/-- The default configuration with `annotationsLimit = 1`. -/
def sampleCfgLimit1 : Config :=
  { sampleCfg with annotationsLimit := 1 }

/-- Attributes carrying only a name. -/
def nameAttrs (n : String) : XAttrs :=
  { name := n, classname := none, status := none, file := none, line := none,
    time := none }

/-- A failure payload with text `boom`. -/
def boomPayload : XPayload :=
  { _cdata := none, _text := some "boom", _attributes := none }

/-- A failing test case named `T`. -/
def caseFailT : XTestCase :=
  { _attributes := nameAttrs "T", failure := JVal.single boomPayload,
    error := none, skipped := false, systemOut := JVal.undef }

/-- A passing test case named `T`. -/
def casePassT : XTestCase :=
  { _attributes := nameAttrs "T", failure := JVal.undef, error := none,
    skipped := false, systemOut := JVal.undef }

/-- A passing test case named `B`. -/
def caseB : XTestCase :=
  { _attributes := nameAttrs "B", failure := JVal.undef, error := none,
    skipped := false, systemOut := JVal.undef }

/-- A second failing test case, named `U`. -/
def caseFailU : XTestCase :=
  { _attributes := nameAttrs "U", failure := JVal.single boomPayload,
    error := none, skipped := false, systemOut := JVal.undef }

/-- A test case with both a failure payload and `status="ignored"`. -/
def caseIgnored : XTestCase :=
  { _attributes := { nameAttrs "I" with status := some "ignored" },
    failure := JVal.single boomPayload, error := none, skipped := false,
    systemOut := JVal.undef }

/-- The running invariant of an `InternalTestResult` accumulator: exactly
one annotation per counted case, failure-level annotations and skip
increments come from distinct counted cases, and a skipped status always
carries a notice level. -/
def ResultInv (r : InternalTestResult) : Prop :=
  r.annotations.length = r.totalCount ∧
  countFailures r.annotations + r.skipped ≤ r.totalCount ∧
  ∀ a ∈ r.annotations, a.status = AnnStatus.skipped →
    a.annotation_level = AnnLevel.notice

/-- The same invariant over the multi-file accumulator (`foundFiles` is
unconstrained). -/
def AggInv (st : AggState) : Prop :=
  st.annotations.length = st.totalCount ∧
  countFailures st.annotations + st.skipped ≤ st.totalCount ∧
  ∀ a ∈ st.annotations, a.status = AnnStatus.skipped →
    a.annotation_level = AnnLevel.notice

/-! Invariant lemmas for the traversal. -/

theorem countFailures_append (a b : List Annotation ) :
    countFailures (a ++ b) = countFailures a + countFailures b := by
  simp [countFailures, List.filter_append]

theorem resultInv_zero : ResultInv ⟨0, 0, []⟩ :=
  ⟨rfl, by simp [countFailures], by simp⟩

theorem resultInv_combine {a b : InternalTestResult}
    (ha : ResultInv a) (hb : ResultInv b) :
    ResultInv ⟨a.totalCount + b.totalCount, a.skipped + b.skipped,
      a.annotations ++ b.annotations⟩ := by
  obtain ⟨ha1, ha2, ha3⟩ := ha
  obtain ⟨hb1, hb2, hb3⟩ := hb
  refine ⟨?_, ?_, ?_⟩
  · show (a.annotations ++ b.annotations).length = a.totalCount + b.totalCount
    rw [List.length_append, ha1, hb1]
  · show countFailures (a.annotations ++ b.annotations) +
      (a.skipped + b.skipped) ≤ a.totalCount + b.totalCount
    rw [countFailures_append]
    omega
  · intro x hx
    rcases List.mem_append.mp hx with h | h
    exacts [ha3 x h, hb3 x h]

theorem makeAnnotation_status (env : Env) (cfg : Config) (sn : String)
    (sa : Option XAttrs) (t : XTestCase) :
    (makeAnnotationOf env cfg sn sa t).status =
      (if tcSkip t then AnnStatus.skipped
       else if !tcFailed t then AnnStatus.success else AnnStatus.failure) := rfl

theorem makeAnnotation_level (env : Env) (cfg : Config) (sn : String)
    (sa : Option XAttrs) (t : XTestCase) :
    (makeAnnotationOf env cfg sn sa t).annotation_level =
      (if (!tcFailed t || tcSkip t) then AnnLevel.notice else AnnLevel.failure) := rfl

theorem resultInv_casesLoopF (env : Env) (cfg : Config) (sn : String)
    (sa : Option XAttrs) :
    ∀ (cases : List XTestCase) (acc : InternalTestResult), ResultInv acc →
      ResultInv (casesLoopF env cfg sn sa cases acc).1 := by
  intro cases
  induction cases with
  | nil => intro acc h; simpa [casesLoopF] using h
  | cons t rest ih =>
    intro acc h
    obtain ⟨h1, h2, h3⟩ := h
    have hs := makeAnnotation_status env cfg sn sa t
    have hl := makeAnnotation_level env cfg sn sa t
    have hinv' : ResultInv ⟨acc.totalCount + 1,
        acc.skipped + (if tcSkip t then 1 else 0),
        acc.annotations ++ [makeAnnotationOf env cfg sn sa t]⟩ := by
      refine ⟨?_, ?_, ?_⟩
      · show (acc.annotations ++ [makeAnnotationOf env cfg sn sa t]).length = acc.totalCount + 1
        simp [h1]
      · show countFailures (acc.annotations ++ [makeAnnotationOf env cfg sn sa t]) +
          (acc.skipped + (if tcSkip t then 1 else 0)) ≤ acc.totalCount + 1
        rw [countFailures_append]
        have hone : countFailures [makeAnnotationOf env cfg sn sa t] +
            (if tcSkip t then 1 else 0) ≤ 1 := by
          cases hsk : tcSkip t with
          | true =>
            have hlev : (makeAnnotationOf env cfg sn sa t).annotation_level =
                AnnLevel.notice := by
              rw [hl]; simp [hsk]
            simp [countFailures, hlev, hsk]
          | false =>
            have hle : ([makeAnnotationOf env cfg sn sa t].filter
                (fun a => a.annotation_level == AnnLevel.failure)).length ≤ 1 := by
              simp only [List.filter]
              split <;> simp
            simp only [countFailures, hsk] at hle ⊢
            simpa using hle
        omega
      · intro a ha
        rcases List.mem_append.mp ha with hmem | hmem
        · exact h3 a hmem
        · rw [List.mem_singleton] at hmem
          subst hmem
          intro hstat
          rw [hl]
          rw [hs] at hstat
          by_cases hsk : tcSkip t
          · simp [hsk]
          · exfalso
            rw [if_neg hsk] at hstat
            split at hstat <;> simp_all
    simp only [casesLoopF]
    split
    · exact hinv'
    · exact ih _ hinv'

theorem resultInv_suitesLoopF (env : Env) (cfg : Config)
    (rec : XSuite → String → InternalTestResult)
    (hrec : ∀ s pn, ResultInv (rec s pn)) :
    ∀ (suites : List (Option XSuite)) (pn : String) (acc : InternalTestResult),
      ResultInv acc → ResultInv (suitesLoopF env cfg rec suites pn acc) := by
  intro suites
  induction suites with
  | nil => intro pn acc h; simpa [suitesLoopF] using h
  | cons hd rest ih =>
    intro pn acc h
    cases hd with
    | none => simpa [suitesLoopF] using h
    | some ts =>
      have hcomb := resultInv_combine h (hrec ts (computeSuiteName env cfg pn ts))
      simp only [suitesLoopF]
      split
      · exact ih pn _ hcomb
      · split
        · exact hcomb
        · generalize (if cfg.checkRetries = true then dedupTestcases (jvList ts.testcase)
            else jvList ts.testcase) = cs
          have hcl := resultInv_casesLoopF env cfg (computeSuiteName env cfg pn ts)
            (ts._attributes) cs _ hcomb
          split
          · exact hcl
          · exact ih pn _ hcl

theorem resultInv_parseSuiteBody (env : Env) (cfg : Config)
    (rec : XSuite → String → InternalTestResult)
    (hrec : ∀ s pn, ResultInv (rec s pn)) (s : XSuite) (pn : String) :
    ResultInv (parseSuiteBody env cfg rec s pn) := by
  unfold parseSuiteBody
  split
  · exact resultInv_zero
  · exact resultInv_suitesLoopF env cfg rec hrec _ pn _ resultInv_zero

theorem resultInv_parseSuiteGo (env : Env) (cfg : Config) :
    ∀ (fuel : Nat) (s : XSuite) (pn : String),
      ResultInv (parseSuiteGo env cfg fuel s pn) := by
  intro fuel
  induction fuel with
  | zero =>
    intro s pn
    exact resultInv_parseSuiteBody env cfg _ (fun _ _ => resultInv_zero) s pn
  | succ n ih =>
    intro s pn
    exact resultInv_parseSuiteBody env cfg _ ih s pn

theorem resultInv_parseFile (env : Env) (cfg : Config) (r : Option XSuite) :
    ResultInv (parseFile env cfg r) := by
  cases r with
  | none => exact resultInv_zero
  | some s => exact resultInv_parseSuiteGo env cfg _ s ""

theorem aggInv_reportsLoop (env : Env) (cfg : Config) :
    ∀ (files : List (Option XSuite)) (st : AggState), AggInv st →
      AggInv (reportsLoop env cfg files st) := by
  intro files
  induction files with
  | nil => intro st h; simpa [reportsLoop] using h
  | cons f rest ih =>
    intro st h
    obtain ⟨h1, h2, h3⟩ := h
    have hf := resultInv_parseFile env cfg f
    obtain ⟨hf1, hf2, hf3⟩ := hf
    simp only [reportsLoop]
    split
    · exact ih _ ⟨h1, h2, h3⟩
    · have hcomb : AggInv
          { annotations := st.annotations ++ (parseFile env cfg f).annotations,
            totalCount := st.totalCount + (parseFile env cfg f).totalCount,
            skipped := st.skipped + (parseFile env cfg f).skipped,
            foundFiles := st.foundFiles + 1 } := by
        refine ⟨?_, ?_, ?_⟩
        · show (st.annotations ++ (parseFile env cfg f).annotations).length =
            st.totalCount + (parseFile env cfg f).totalCount
          simp [h1, hf1]
        · show countFailures (st.annotations ++ (parseFile env cfg f).annotations) +
            (st.skipped + (parseFile env cfg f).skipped) ≤
            st.totalCount + (parseFile env cfg f).totalCount
          rw [countFailures_append]
          omega
        · intro a ha
          rcases List.mem_append.mp ha with hm | hm
          exacts [h3 a hm, hf3 a hm]
      split
      · exact hcomb
      · exact ih _ hcomb

/-- C1: for every `TestResult` produced by `parseTestReports`,
`totalCount = passed + failed + skipped`, `failed` is the number of
failure-level annotations, and there are at most `totalCount` annotations
(in fact exactly one annotation per counted test case). -/
theorem C1_result_invariants (env : Env) (cfg : Config) (cn sm : String)
    (files : List (Option XSuite)) :
    ((parseTestReports env cfg cn sm files).totalCount : Int) =
        (parseTestReports env cfg cn sm files).passed +
        ((parseTestReports env cfg cn sm files).failed : Int) +
        ((parseTestReports env cfg cn sm files).skipped : Int) ∧
    (parseTestReports env cfg cn sm files).failed =
        countFailures (parseTestReports env cfg cn sm files).annotations ∧
    (parseTestReports env cfg cn sm files).annotations.length ≤
        (parseTestReports env cfg cn sm files).totalCount := by
  have hagg := aggInv_reportsLoop env cfg files ⟨[], 0, 0, 0⟩
    ⟨rfl, by simp [countFailures], by simp⟩
  obtain ⟨hg1, hg2, hg3⟩ := hagg
  refine ⟨?_, rfl, ?_⟩
  · simp only [parseTestReports]
    ring
  · simpa [parseTestReports] using le_of_eq hg1

/-- C10: for every `TestResult` produced by `parseTestReports`,
`passed ≥ 0`: each failure-level annotation and each skip increment comes
from a distinct counted test case, so `failed + skipped ≤ totalCount`. -/
theorem C10_passed_nonneg (env : Env) (cfg : Config) (cn sm : String)
    (files : List (Option XSuite)) :
    0 ≤ (parseTestReports env cfg cn sm files).passed ∧
    (parseTestReports env cfg cn sm files).failed +
        (parseTestReports env cfg cn sm files).skipped ≤
      (parseTestReports env cfg cn sm files).totalCount := by
  have hagg := aggInv_reportsLoop env cfg files ⟨[], 0, 0, 0⟩
    ⟨rfl, by simp [countFailures], by simp⟩
  obtain ⟨hg1, hg2, hg3⟩ := hagg
  constructor
  · show (0 : Int) ≤ (parseTestReports env cfg cn sm files).passed
    simp only [parseTestReports]
    omega
  · show countFailures _ + _ ≤ _
    simpa [parseTestReports] using hg2


theorem parseSuiteGo_succ (env : Env) (cfg : Config) (fuel : Nat) (s : XSuite) (pn : String) :
    parseSuiteGo env cfg (fuel + 1) s pn =
      parseSuiteBody env cfg (parseSuiteGo env cfg fuel) s pn := rfl

theorem limitReached_nil (l : Int) (ap : Bool) : limitReached l ap [] = false := by
  simp [limitReached, limitCount]

theorem parseFile_mkCasesReport (env : Env) (cfg : Config) (cases : JVal XTestCase) :
    parseFile env cfg (some (mkCasesReport cases)) =
      (if !jvTruthy cases then (⟨0, 0, []⟩ : InternalTestResult)
       else if limitReached cfg.annotationsLimit cfg.annotatePassed [] then ⟨0, 0, []⟩
       else (casesLoopF env cfg
              (computeSuiteName env cfg "" (XSuite.mk none SuiteField.undef none cases)) none
              (if cfg.checkRetries then dedupTestcases (jvList cases) else jvList cases)
              ⟨0, 0, []⟩).1) := by
  show parseSuiteGo env cfg (suiteFuel (mkCasesReport cases)) (mkCasesReport cases) "" = _
  rw [show suiteFuel (mkCasesReport cases) = 1 + 1 from rfl]
  rw [parseSuiteGo_succ]
  rw [show parseSuiteGo env cfg 1 = parseSuiteBody env cfg (parseSuiteGo env cfg 0) from rfl]
  rw [show parseSuiteGo env cfg 0 = parseSuiteBody env cfg (fun _ _ => ⟨0, 0, []⟩) from rfl]
  simp only [parseSuiteBody, mkCasesReport, XSuite.testsuite, XSuite.testsuites,
    XSuite.testcase, XSuite._attributes, sfTruthy, normalizedSuites, suitesLoopF,
    Option.isNone, Bool.not_true, Bool.false_and, Bool.and_false, if_false,
    Bool.not_false, Bool.true_and, Bool.and_true]
  simp [suitesLoopF, ite_self]



/-- C2: cap enforcement.  With `annotationsLimit = 1` and two failing test
cases in one report file, `parseFile` returns exactly one failure-level
annotation and stops before consuming the second case (`totalCount = 1`);
the cap test `limitReached` is never true when `annotationsLimit ≤ 0`
(unlimited); and with `annotatePassed` enabled every annotation — not only
failure-level ones — counts toward the limit. -/
theorem C2_cap_enforcement (env : Env) (cfg : Config) (t1 t2 : XTestCase) :
    (cfg.annotationsLimit = 1 → cfg.checkRetries = false → tcFailed t1 = true →
      tcSkip t1 = false →
      (parseFile env cfg (some (mkCasesReport (JVal.arr [t1, t2])))).totalCount = 1 ∧
      (parseFile env cfg (some (mkCasesReport (JVal.arr [t1, t2])))).annotations.length = 1 ∧
      countFailures (parseFile env cfg (some (mkCasesReport (JVal.arr [t1, t2])))).annotations = 1) ∧
    (∀ (limit : Int) (ap : Bool) (anns : List Annotation ), limit ≤ 0 →
      limitReached limit ap anns = false) ∧
    (∀ anns : List Annotation , limitCount true anns = anns.length) := by
  refine ⟨?_, ?_, ?_⟩
  · intro hlim hcr hf hsk
    rw [parseFile_mkCasesReport]
    have hlev : (makeAnnotationOf env cfg
        (computeSuiteName env cfg "" (XSuite.mk none SuiteField.undef none (JVal.arr [t1, t2])))
        none t1).annotation_level = AnnLevel.failure := by
      rw [makeAnnotation_level]; simp [hf, hsk]
    simp [jvTruthy, limitReached_nil, hcr, jvList, casesLoopF, hsk, limitReached,
      limitCount, hlev, hlim, countFailures]
  · intro limit ap anns hle
    simp only [limitReached]
    have : ¬ (0 < limit) := by omega
    simp [this]
  · intro anns
    simp [limitCount]



/-- C5: skip precedence.  Every annotation produced by `parseTestReports`
with status `skipped` has annotation level `notice`; and a test case with a
failure/error payload that is skipped (a `skipped` child, or
`status="ignored"`/`"disabled"`, i.e. `tcSkip t = true`) yields
`status = skipped`, `annotation_level = notice`, increments the skipped
counter and contributes nothing to the failure count. -/
theorem C5_skip_precedence (env : Env) (cfg : Config) (cn sm : String)
    (files : List (Option XSuite)) :
    (∀ a ∈ (parseTestReports env cfg cn sm files).annotations,
       a.status = AnnStatus.skipped → a.annotation_level = AnnLevel.notice) ∧
    (∀ t : XTestCase, tcFailed t = true → tcSkip t = true →
      (parseFile env cfg (some (mkCasesReport (JVal.single t)))).skipped = 1 ∧
      (parseFile env cfg (some (mkCasesReport (JVal.single t)))).totalCount = 1 ∧
      countFailures (parseFile env cfg (some (mkCasesReport (JVal.single t)))).annotations = 0 ∧
      ∀ a ∈ (parseFile env cfg (some (mkCasesReport (JVal.single t)))).annotations,
        a.status = AnnStatus.skipped ∧ a.annotation_level = AnnLevel.notice) := by
  constructor
  · have hagg := aggInv_reportsLoop env cfg files ⟨[], 0, 0, 0⟩
      ⟨rfl, by simp [countFailures], by simp⟩
    exact fun a ha => hagg.2.2 a ha
  · intro t hf hsk
    rw [parseFile_mkCasesReport]
    have hstat : (makeAnnotationOf env cfg
        (computeSuiteName env cfg "" (XSuite.mk none SuiteField.undef none (JVal.single t)))
        none t).status = AnnStatus.skipped := by
      rw [makeAnnotation_status]; simp [hsk]
    have hlev : (makeAnnotationOf env cfg
        (computeSuiteName env cfg "" (XSuite.mk none SuiteField.undef none (JVal.single t)))
        none t).annotation_level = AnnLevel.notice := by
      rw [makeAnnotation_level]; simp [hsk]
    have hded : dedupTestcases [t] = [t] := rfl
    simp [jvTruthy, limitReached_nil, jvList, hded, casesLoopF, hsk, hstat, hlev,
      countFailures, apply_ite]



theorem mapGet_cons (k' : String) (v' : XTestCase) (rest : List (String × XTestCase))
    (x : String) :
    mapGet ((k', v') :: rest) x = if k' = x then some v' else mapGet rest x := by
  by_cases h : k' = x
  · have hp : (((k', v') : String × XTestCase).1 == x) = true := by
      simpa [beq_iff_eq] using h
    simp [mapGet, List.find?_cons_of_pos, hp, h]
  · have hp : ¬ ((((k', v') : String × XTestCase).1 == x) = true) := by
      simpa [beq_iff_eq] using h
    simp [mapGet, List.find?_cons_of_neg, hp, h]

theorem mapSet_cons (k' : String) (v' : XTestCase) (rest : List (String × XTestCase))
    (k : String) (v : XTestCase) :
    mapSet ((k', v') :: rest) k v =
      if k' = k then (k', v) :: rest else (k', v') :: mapSet rest k v := by
  by_cases h : k' = k <;> simp [mapSet, beq_iff_eq, h]

theorem mapGet_mapSet (m : List (String × XTestCase)) (k : String) (v : XTestCase)
    (x : String) :
    mapGet (mapSet m k v) x = if x = k then some v else mapGet m x := by
  induction m with
  | nil =>
    show mapGet [(k, v)] x = _
    rw [mapGet_cons]
    by_cases hx : x = k
    · simp [hx]
    · have hx' : ¬ k = x := fun hh => hx hh.symm
      simp [hx, hx', mapGet]
  | cons e rest ih =>
    obtain ⟨k', v'⟩ := e
    rw [mapSet_cons]
    by_cases hk : k' = k
    · subst hk
      rw [if_pos rfl, mapGet_cons, mapGet_cons]
      by_cases hx : k' = x
      · simp [hx]
      · have hx' : ¬ x = k' := fun hh => hx hh.symm
        simp [hx, hx']
    · rw [if_neg hk, mapGet_cons, mapGet_cons, ih]
      by_cases hxk : x = k
      · have hkx : ¬ k' = x := by rw [hxk]; exact hk
        simp [hxk, hkx]
        intro hh
        exact absurd hh hk
      · by_cases hx : k' = x <;> simp [hx, hxk]

theorem mapSet_keys (m : List (String × XTestCase)) (k : String) (v : XTestCase) :
    (mapSet m k v).map Prod.fst =
      if (mapGet m k).isSome then m.map Prod.fst else m.map Prod.fst ++ [k] := by
  induction m with
  | nil => simp [mapSet, mapGet]
  | cons e rest ih =>
    obtain ⟨k', v'⟩ := e
    rw [mapSet_cons, mapGet_cons]
    by_cases hk : k' = k
    · simp [hk]
    · simp only [if_neg hk, List.map_cons, ih]
      by_cases hs : (mapGet rest k).isSome <;> simp [hs]



theorem dedupGo_keys : ∀ (ts : List XTestCase) (m : List (String × XTestCase))
    (seen : List String),
    (∀ x, (mapGet m x).isSome = seen.contains x) →
    (dedupGo m ts).map Prod.fst =
      m.map Prod.fst ++ firstOccurrencesGo seen (ts.map (fun t => t._attributes.name)) := by
  intro ts
  induction ts with
  | nil => intro m seen h; simp [dedupGo, firstOccurrencesGo]
  | cons t rest ih =>
    intro m seen h
    simp only [dedupGo, List.map_cons, firstOccurrencesGo]
    cases hg : mapGet m t._attributes.name with
    | some prev =>
      have hseen : seen.contains t._attributes.name = true := by
        rw [← h, hg]; rfl
      simp only [hg, hseen, if_true]
      by_cases h1 : (tcFailed t && !tcFailed prev) = true
      · rw [if_pos h1]; exact ih m seen h
      · rw [if_neg h1]
        by_cases h2 : (!tcFailed t && tcFailed prev) = true
        · rw [if_pos h2]
          have hkeys : (mapSet m t._attributes.name t).map Prod.fst = m.map Prod.fst := by
            simp [mapSet_keys, hg]
          have hsame : ∀ x, (mapGet (mapSet m t._attributes.name t) x).isSome =
              seen.contains x := by
            intro x
            rw [mapGet_mapSet]
            by_cases hx : x = t._attributes.name
            · rw [if_pos hx, hx, hseen]; rfl
            · rw [if_neg hx]; exact h x
          rw [ih (mapSet m t._attributes.name t) seen hsame, hkeys]
        · rw [if_neg h2]; exact ih m seen h
    | none =>
      have hseen : seen.contains t._attributes.name = false := by
        rw [← h, hg]; rfl
      simp only [hg, hseen, if_false, Bool.false_eq_true]
      have hkeys : (mapSet m t._attributes.name t).map Prod.fst =
          m.map Prod.fst ++ [t._attributes.name] := by
        simp [mapSet_keys, hg]
      have hsame : ∀ x, (mapGet (mapSet m t._attributes.name t) x).isSome =
          (t._attributes.name :: seen).contains x := by
        intro x
        rw [mapGet_mapSet]
        by_cases hx : x = t._attributes.name
        · simp [hx, List.contains_cons]
        · simp [hx, List.contains_cons, h x]
      rw [ih (mapSet m t._attributes.name t) (t._attributes.name :: seen) hsame, hkeys]
      simp

theorem mapSet_mem (m : List (String × XTestCase)) (k : String) (v : XTestCase) :
    ∀ e ∈ mapSet m k v, e ∈ m ∨ e = (k, v) := by
  induction m with
  | nil =>
    intro e he
    simp only [mapSet, List.mem_singleton] at he
    right; exact he
  | cons f rest ih =>
    obtain ⟨k', v'⟩ := f
    intro e he
    rw [mapSet_cons] at he
    by_cases hk : k' = k
    · rw [if_pos hk] at he
      rcases List.mem_cons.mp he with h1 | h1
      · right; rw [h1, hk]
      · left; exact List.mem_cons_of_mem _ h1
    · rw [if_neg hk] at he
      rcases List.mem_cons.mp he with h1 | h1
      · left; rw [h1]; exact List.mem_cons_self _ _
      · rcases ih e h1 with h2 | h2
        · left; exact List.mem_cons_of_mem _ h2
        · right; exact h2

theorem dedupGo_names_inv : ∀ (ts : List XTestCase) (m : List (String × XTestCase)),
    (∀ e ∈ m, e.1 = e.2._attributes.name) →
    ∀ e ∈ dedupGo m ts, e.1 = e.2._attributes.name := by
  intro ts
  induction ts with
  | nil => intro m hm; simpa [dedupGo] using hm
  | cons t rest ih =>
    intro m hm
    simp only [dedupGo]
    have hmset : ∀ e ∈ mapSet m t._attributes.name t, e.1 = e.2._attributes.name := by
      intro e he
      rcases mapSet_mem m t._attributes.name t e he with h1 | h1
      · exact hm e h1
      · rw [h1]
    cases hg : mapGet m t._attributes.name with
    | some prev =>
      dsimp only
      by_cases h1 : (tcFailed t && !tcFailed prev) = true
      · rw [if_pos h1]; exact ih m hm
      · rw [if_neg h1]
        by_cases h2 : (!tcFailed t && tcFailed prev) = true
        · rw [if_pos h2]; exact ih _ hmset
        · rw [if_neg h2]; exact ih m hm
    | none => exact ih _ hmset

theorem dedup_names (ts : List XTestCase) :
    (dedupTestcases ts).map (fun t => t._attributes.name) =
      firstOccurrences (ts.map (fun t => t._attributes.name)) := by
  have hkeys := dedupGo_keys ts [] [] (fun x => rfl)
  have hnm := dedupGo_names_inv ts [] (by simp)
  have h1 : (dedupTestcases ts).map (fun t => t._attributes.name) =
      (dedupGo [] ts).map (fun e => e.2._attributes.name) := by
    simp [dedupTestcases, List.map_map]
  rw [h1]
  have h2 : (dedupGo [] ts).map (fun e => e.2._attributes.name) =
      (dedupGo [] ts).map Prod.fst := by
    refine List.map_congr_left ?_
    intro e he
    exact (hnm e he).symm
  rw [h2]
  simpa [firstOccurrences] using hkeys



/-- C3: flaky reconciliation.  For two same-named cases, first failing then
passing, the reconciled sequence keeps exactly the passing one at the
position of the first occurrence (shown both for the pair alone and with a
distinct-named case in between); when both duplicates fail or both pass the
first-seen case is kept; and in general the output order is the order of
first occurrence of each distinct name. -/
theorem C3_flaky_reconciliation (t1 t2 b : XTestCase)
    (h : t1._attributes.name = t2._attributes.name) :
    (tcFailed t1 = true → tcFailed t2 = false → dedupTestcases [t1, t2] = [t2]) ∧
    (tcFailed t1 = tcFailed t2 → dedupTestcases [t1, t2] = [t1]) ∧
    (tcFailed t1 = true → tcFailed t2 = false →
      b._attributes.name ≠ t1._attributes.name →
      dedupTestcases [t1, b, t2] = [t2, b]) ∧
    (∀ ts : List XTestCase, (dedupTestcases ts).map (fun t => t._attributes.name) =
      firstOccurrences (ts.map (fun t => t._attributes.name))) := by
  have hget : mapGet [(t1._attributes.name, t1)] (t2._attributes.name) = some t1 := by
    rw [mapGet_cons, if_pos h]
  have hset : mapSet [(t1._attributes.name, t1)] (t2._attributes.name) t2 =
      [(t1._attributes.name, t2)] := by
    rw [mapSet_cons, if_pos h]
  refine ⟨?_, ?_, ?_, ?_⟩
  · intro hf1 hf2
    show (dedupGo [(t1._attributes.name, t1)] [t2]).map (fun e => e.2) = [t2]
    simp [dedupGo, hget, hf1, hf2, hset]
  · intro he
    have he' : tcFailed t2 = tcFailed t1 := he.symm
    show (dedupGo [(t1._attributes.name, t1)] [t2]).map (fun e => e.2) = [t1]
    cases hf : tcFailed t1 <;> simp [dedupGo, hget, he', hf]
  · intro hf1 hf2 hb
    have hgetb : mapGet [(t1._attributes.name, t1)] (b._attributes.name) = none := by
      rw [mapGet_cons, if_neg (fun hh => hb hh.symm)]; rfl
    have hsetb : mapSet [(t1._attributes.name, t1)] (b._attributes.name) b =
        [(t1._attributes.name, t1), (b._attributes.name, b)] := by
      rw [mapSet_cons, if_neg (fun hh => hb hh.symm)]; rfl
    have hget2 : mapGet [(t1._attributes.name, t1), (b._attributes.name, b)]
        (t2._attributes.name) = some t1 := by
      rw [mapGet_cons, if_pos h]
    have hset2 : mapSet [(t1._attributes.name, t1), (b._attributes.name, b)]
        (t2._attributes.name) t2 =
        [(t1._attributes.name, t2), (b._attributes.name, b)] := by
      rw [mapSet_cons, if_pos h]
    show (dedupGo [(t1._attributes.name, t1)] [b, t2]).map (fun e => e.2) = [t2, b]
    simp [dedupGo, hgetb, hsetb, hget2, hf1, hf2, hset2]
  · exact dedup_names

/-- Witness for C3 at concrete test cases named `T` (failing then passing)
and `B`. -/
theorem C3_flaky_witness :
    dedupTestcases [caseFailT, casePassT] = [casePassT] ∧
    dedupTestcases [caseFailT, caseB, casePassT] = [casePassT, caseB] := by
  have hh := C3_flaky_reconciliation caseFailT casePassT caseB rfl
  exact ⟨hh.1 rfl rfl, hh.2.2.1 rfl rfl (by decide)⟩



theorem reportsLoop_ff (env : Env) (cfg : Config) :
    ∀ (files : List (Option XSuite)) (anns : List Annotation )
      (tc sk ff k : Nat),
      reportsLoop env cfg files ⟨anns, tc, sk, ff + k⟩ =
        { reportsLoop env cfg files ⟨anns, tc, sk, ff⟩ with
          foundFiles := (reportsLoop env cfg files ⟨anns, tc, sk, ff⟩).foundFiles + k } := by
  intro files
  induction files with
  | nil => intro anns tc sk ff k; rfl
  | cons f rest ih =>
    intro anns tc sk ff k
    simp only [reportsLoop]
    split
    · rw [show ff + k + 1 = (ff + 1) + k from by omega]
      exact ih anns tc sk (ff + 1) k
    · split
      · rw [show ff + k + 1 = ff + 1 + k from by omega]
      · rw [show ff + k + 1 = (ff + 1) + k from by omega]
        exact ih _ _ _ (ff + 1) k

/-- C8: a report file whose contents fail to parse as XML (`none`)
contributes zero counts and zero annotations, and `parseTestReports`
carries on with the remaining files: prepending a failed file changes only
`foundFiles` (by one) and nothing else of the result. -/
theorem C8_parse_failure_isolated (env : Env) (cfg : Config) (cn sm : String)
    (rest : List (Option XSuite)) :
    parseFile env cfg none = ⟨0, 0, []⟩ ∧
    (parseTestReports env cfg cn sm (none :: rest)).totalCount =
      (parseTestReports env cfg cn sm rest).totalCount ∧
    (parseTestReports env cfg cn sm (none :: rest)).skipped =
      (parseTestReports env cfg cn sm rest).skipped ∧
    (parseTestReports env cfg cn sm (none :: rest)).failed =
      (parseTestReports env cfg cn sm rest).failed ∧
    (parseTestReports env cfg cn sm (none :: rest)).passed =
      (parseTestReports env cfg cn sm rest).passed ∧
    (parseTestReports env cfg cn sm (none :: rest)).annotations =
      (parseTestReports env cfg cn sm rest).annotations ∧
    (parseTestReports env cfg cn sm (none :: rest)).foundFiles =
      (parseTestReports env cfg cn sm rest).foundFiles + 1 := by
  have hkey : reportsLoop env cfg (none :: rest) ⟨[], 0, 0, 0⟩ =
      { reportsLoop env cfg rest ⟨[], 0, 0, 0⟩ with
        foundFiles := (reportsLoop env cfg rest ⟨[], 0, 0, 0⟩).foundFiles + 1 } := by
    have h1 : reportsLoop env cfg (none :: rest) ⟨[], 0, 0, 0⟩ =
        reportsLoop env cfg rest ⟨[], 0, 0, 0 + 1⟩ := rfl
    rw [h1, reportsLoop_ff]
  refine ⟨rfl, ?_, ?_, ?_, ?_, ?_, ?_⟩ <;> simp [parseTestReports, hkey]

/-- C9: when the normalized testsuite sequence contains a falsy element,
`parseSuite`'s loop returns the accumulated counts and annotations at once
(a leading falsy element returns the accumulator unchanged, and everything
after the first falsy element is never looked at), and the empty
`<testsuites/>` wrapper document parses to the all-zero result without
error. -/
theorem C9_falsy_suite_element (env : Env) (cfg : Config) :
    (∀ (rec : XSuite → String → InternalTestResult) (pn : String)
       (acc : InternalTestResult) (ys : List (Option XSuite)),
       suitesLoopF env cfg rec (none :: ys) pn acc = acc) ∧
    (∀ (rec : XSuite → String → InternalTestResult) (pn : String)
       (acc : InternalTestResult) (xs ys ys' : List (Option XSuite)),
       suitesLoopF env cfg rec (xs ++ none :: ys) pn acc =
         suitesLoopF env cfg rec (xs ++ none :: ys') pn acc) ∧
    parseFile env cfg (some emptyTestsuitesReport) = ⟨0, 0, []⟩ := by
  refine ⟨fun _ _ _ _ => rfl, ?_, rfl⟩
  intro rec pn acc xs ys ys'
  induction xs generalizing acc with
  | nil => rfl
  | cons hd xs' ih =>
    cases hd with
    | none => rfl
    | some ts =>
      simp only [List.cons_append, suitesLoopF]
      split
      · exact ih _
      · split
        · rfl
        · generalize (if cfg.checkRetries = true then dedupTestcases (jvList ts.testcase)
            else jvList ts.testcase) = cs
          split
          · rfl
          · exact ih _


theorem resolveFileAndLineX_snd_eq (file line : Option String) (className output : String) :
    (resolveFileAndLineX file line className output).2 =
      (if resolvedFileName0 file className ≠ "" ∧
          jsTruthyIntOpt (safeParseInt line) = true then false else true) := by
  by_cases hc : resolvedFileName0 file className ≠ "" ∧
      jsTruthyIntOpt (safeParseInt line) = true
  · rw [if_pos hc]
    simp only [resolveFileAndLineX]
    rw [if_pos hc]
  · rw [if_neg hc]
    simp only [resolveFileAndLineX]
    rw [if_neg hc]
    split <;> rfl

/-- C4 (amended): `resolveFileAndLine` returns immediately, performing no
corpus search, exactly when the resolved file name (the explicit `file`
token, else the last dot-segment of the classname) is non-empty and the
explicit line token parses to a *non-zero* integer; in that case the
returned `Position` is exactly the explicit one.  The claim as stated is
refuted by `C4_counterexample`: a parseable explicit line `"0"` is falsy in JS, so
the search is performed although explicit evidence is present. -/
theorem C4_early_return_iff (file line : Option String) (className output : String) :
    (((resolveFileAndLineX file line className output).2 = false) ↔
      (resolvedFileName0 file className ≠ "" ∧
        jsTruthyIntOpt (safeParseInt line) = true)) ∧
    ((resolveFileAndLineX file line className output).2 = false →
      resolveFileAndLine file line className output =
        ⟨resolvedFileName0 file className, (safeParseInt line).getD 0⟩) := by
  have hsnd := resolveFileAndLineX_snd_eq file line className output
  constructor
  · rw [hsnd]
    by_cases hc : resolvedFileName0 file className ≠ "" ∧
        jsTruthyIntOpt (safeParseInt line) = true
    · simp [hc]
    · simp [hc]
  · intro h2
    have hc : resolvedFileName0 file className ≠ "" ∧
        jsTruthyIntOpt (safeParseInt line) = true := by
      rw [hsnd] at h2
      by_contra hcn
      rw [if_neg hcn] at h2
      exact absurd h2 (by decide)
    simp only [resolveFileAndLine, resolveFileAndLineX]
    rw [if_pos hc]

/-- Refutes C4 as stated: with the explicit file `a.java` and the parseable
explicit line token `"0"` (`safeParseInt` accepts it), the early return is
not taken — the corpus is searched and its match wins (line 7 from the
corpus, not 0). -/
theorem C4_counterexample :
    (resolveFileAndLineX (some "a.java") (some "0") "C" " x a.java:7").2 = true ∧
    safeParseInt (some "0") = some 0 ∧
    resolveFileAndLine (some "a.java") (some "0") "C" " x a.java:7" = ⟨"a.java", 7⟩ := by
  refine ⟨by decide, by decide, by decide⟩

/-- C7 (amended): before searching the corpus, `resolveFileAndLine`
escapes the resolved file name for literal regex use and replaces only the
*first* occurrence of `::` with `/` (JS `String.replace` with a string
pattern).  Behaviourally: with file name `a::b::c` the corpus literal
searched is `a/b::c` (match found, line 7) and not `a/b/c` (no match,
line 1); the escape makes `a.b` match literally, not as a regex dot. -/
theorem C7_escape_and_first_occurrence :
    escapedFileNameOf "a::b::c" = "a/b::c" ∧
    escapedFileNameOf "a.b" = "a\\.b" ∧
    (resolveFileAndLine (some "a::b::c") none "C" " a/b::c:7").line = 7 ∧
    (resolveFileAndLine (some "a::b::c") none "C" " a/b/c:7").line = 1 ∧
    (resolveFileAndLine (some "a.b") none "C" " aXb:5").line = 1 ∧
    (resolveFileAndLine (some "a.b") none "C" " a.b:5").line = 5 := by
  refine ⟨by decide, by decide, by decide, by decide, by decide, by decide⟩

/-- Refutes C7 as stated: for the file name `a::b::c`, only the first `::`
is replaced — the escaped name is `a/b::c`, not `a/b/c`, so not every
occurrence of `::` is replaced. -/
theorem C7_counterexample :
    escapedFileNameOf "a::b::c" = "a/b::c" ∧ ("a/b::c" : String) ≠ "a/b/c" := by
  exact ⟨by decide, by decide⟩


theorem take_takeWhile_length (p : Char → Bool) :
    ∀ l : List Char, l.take (l.takeWhile p).length = l.takeWhile p := by
  intro l
  induction l with
  | nil => rfl
  | cons c r ih =>
    by_cases h : p c
    · simp [List.takeWhile_cons, h, ih]
    · simp [List.takeWhile_cons, h]

theorem lazyColonDigits_spec :
    ∀ (l : List Char) (t : Nat), lazyColonDigits l = some t →
      ∃ a d, l.take t = a ++ ':' :: d ∧ d ≠ [] ∧ ∀ c ∈ d, c.isDigit = true := by
  intro l
  induction l with
  | nil => intro t h; simp [lazyColonDigits] at h
  | cons c r ih =>
    intro t h
    by_cases hc : c = ':'
    · subst hc
      cases r with
      | nil => simp [lazyColonDigits] at h
      | cons d r' =>
        by_cases hd : d.isDigit
        · simp only [lazyColonDigits, hd, if_true, if_pos rfl] at h
          have ht : t = 2 + (r'.takeWhile Char.isDigit).length := (Option.some_inj.mp h).symm
          refine ⟨[], d :: r'.takeWhile Char.isDigit, ?_, by simp, ?_⟩
          · rw [ht, show 2 + (r'.takeWhile Char.isDigit).length =
              ((r'.takeWhile Char.isDigit).length + 1) + 1 from by omega]
            rw [List.take_succ_cons, List.take_succ_cons, take_takeWhile_length]
            rfl
          · intro x hx
            rcases List.mem_cons.mp hx with h1 | h1
            · rw [h1]; exact hd
            · exact List.mem_takeWhile_imp h1
        · rw [show lazyColonDigits (':' :: d :: r') =
            (lazyColonDigits (d :: r')).map (· + 1) from by
              simp [lazyColonDigits, hd]] at h
          obtain ⟨t', ht', htt⟩ := Option.map_eq_some'.mp h
          obtain ⟨a, dd, hEq, hne, hdig⟩ := ih t' ht'
          refine ⟨':' :: a, dd, ?_, hne, hdig⟩
          rw [← htt, List.take_succ_cons, hEq]
          rfl
    · by_cases hn : c = '\n'
      · rw [show lazyColonDigits (c :: r) = none from by
          cases r <;> simp [lazyColonDigits, hc, hn]] at h
        exact absurd h (by simp)
      · rw [show lazyColonDigits (c :: r) = (lazyColonDigits r).map (· + 1) from by
          cases r <;> simp [lazyColonDigits, hc, hn]] at h
        obtain ⟨t', ht', htt⟩ := Option.map_eq_some'.mp h
        obtain ⟨a, dd, hEq, hne, hdig⟩ := ih t' ht'
        refine ⟨c :: a, dd, ?_, hne, hdig⟩
        rw [← htt, List.take_succ_cons, hEq]
        rfl



theorem tryAt_spec (s pat : List Char) (m e : Nat) (h : tryAt s pat m = some e) :
    ∃ t, lazyColonDigits (s.drop (m + pat.length)) = some t ∧
      e = m + pat.length + t := by
  unfold tryAt at h
  split at h
  · obtain ⟨t, ht, htt⟩ := Option.map_eq_some'.mp h
    exact ⟨t, ht, htt.symm⟩
  · exact absurd h (by simp)

theorem greedyBack_spec (s pat : List Char) (i : Nat) :
    ∀ (k e : Nat), greedyBack s pat i k = some e →
      ∃ m, i + 1 ≤ m ∧ tryAt s pat m = some e := by
  intro k
  induction k with
  | zero =>
    intro e h
    exact ⟨i + 1, le_refl _, h⟩
  | succ k ih =>
    intro e h
    rw [show greedyBack s pat i (k + 1) =
        (match tryAt s pat (i + 1 + (k + 1)) with
         | some e => some e
         | none => greedyBack s pat i k) from rfl] at h
    cases htry : tryAt s pat (i + 1 + (k + 1)) with
    | some e' =>
      rw [htry] at h
      dsimp only at h
      exact ⟨i + 1 + (k + 1), by omega, by rw [htry, h]⟩
    | none =>
      rw [htry] at h
      dsimp only at h
      exact ih e h

theorem matchOneAt_spec (s pat : List Char) (i e : Nat)
    (h : matchOneAt s pat i = some e) :
    ∃ a d, (s.drop i).take (e - i) = a ++ ':' :: d ∧ d ≠ [] ∧
      ∀ c ∈ d, c.isDigit = true := by
  unfold matchOneAt at h
  cases hg : s.get? i with
  | none => rw [hg] at h; exact absurd h (by simp)
  | some c =>
    rw [hg] at h
    dsimp only at h
    by_cases hsp : c = ' '
    · rw [if_pos hsp] at h
      obtain ⟨m, hm, htry⟩ := greedyBack_spec s pat i _ e h
      obtain ⟨t, hlcd, hE⟩ := tryAt_spec s pat m e htry
      obtain ⟨a, d, hTake, hne, hdig⟩ := lazyColonDigits_spec _ t hlcd
      refine ⟨(s.drop i).take (m + pat.length - i) ++ a, d, ?_, hne, hdig⟩
      have h1 : e - i = (m + pat.length - i) + t := by omega
      rw [h1, List.take_add]
      have h2 : (s.drop i).drop (m + pat.length - i) = s.drop (m + pat.length) := by
        rw [List.drop_drop]
        congr 1
        omega
      rw [h2, hTake, List.append_assoc]
    · rw [if_neg hsp] at h
      exact absurd h (by simp)

theorem jsMatchAllGo_spec (s pat : List Char) :
    ∀ (fuel i : Nat), ∀ mm ∈ jsMatchAllGo s pat i fuel,
      ∃ a d, mm = a ++ ':' :: d ∧ d ≠ [] ∧ ∀ c ∈ d, c.isDigit = true := by
  intro fuel
  induction fuel with
  | zero => intro i mm hmm; simp [jsMatchAllGo] at hmm
  | succ fuel ih =>
    intro i mm hmm
    rw [show jsMatchAllGo s pat i (fuel + 1) =
        (match matchOneAt s pat i with
         | some e => ((s.drop i).take (e - i)) :: jsMatchAllGo s pat e fuel
         | none => if i < s.length then jsMatchAllGo s pat (i + 1) fuel else []) from
      rfl] at hmm
    cases hone : matchOneAt s pat i with
    | some e =>
      rw [hone] at hmm
      dsimp only at hmm
      rcases List.mem_cons.mp hmm with h1 | h1
      · obtain ⟨a, d, hT, hne, hdig⟩ := matchOneAt_spec s pat i e hone
        exact ⟨a, d, h1.symm ▸ hT, hne, hdig⟩
      · exact ih e mm h1
    | none =>
      rw [hone] at hmm
      dsimp only at hmm
      by_cases hlt : i < s.length
      · rw [if_pos hlt] at hmm
        exact ih (i + 1) mm hmm
      · rw [if_neg hlt] at hmm
        simp at hmm

theorem jsMatchAll_spec (pat s : List Char) (ms : List (List Char))
    (h : jsMatchAll pat s = some ms) :
    ms ≠ [] ∧ ∀ mm ∈ ms, ∃ a d, mm = a ++ ':' :: d ∧ d ≠ [] ∧
      ∀ c ∈ d, c.isDigit = true := by
  simp only [jsMatchAll] at h
  split at h
  · exact absurd h (by simp)
  · next hne =>
    have hms : ms = jsMatchAllGo s pat 0 (s.length + 2) := (Option.some_inj.mp h).symm
    constructor
    · rw [hms]; exact hne
    · intro mm hmm
      exact jsMatchAllGo_spec s pat (s.length + 2) 0 mm (hms ▸ hmm)



theorem jsSplitChar_ne_nil (sep : Char) : ∀ l : List Char, jsSplitChar sep l ≠ [] := by
  intro l
  cases l with
  | nil => simp [jsSplitChar]
  | cons c r =>
    by_cases h : c = sep
    · simp [jsSplitChar, h]
    · simp only [jsSplitChar, if_neg h]
      cases jsSplitChar sep r <;> simp

theorem jsSplitChar_no_sep (sep : Char) :
    ∀ l : List Char, (∀ c ∈ l, c ≠ sep) → jsSplitChar sep l = [l] := by
  intro l
  induction l with
  | nil => intro _; rfl
  | cons c r ih =>
    intro hl
    have hc : ¬ c = sep := hl c (List.mem_cons_self c r)
    rw [show jsSplitChar sep (c :: r) =
        (match jsSplitChar sep r with
         | h :: t => (c :: h) :: t
         | [] => [[c]]) from by simp [jsSplitChar, hc]]
    rw [ih (fun x hx => hl x (List.mem_cons_of_mem c hx))]

theorem jsSplitChar_len_two (sep : Char) :
    ∀ l : List Char, sep ∈ l → 2 ≤ (jsSplitChar sep l).length := by
  intro l
  induction l with
  | nil => intro h; simp at h
  | cons c r ih =>
    intro hm
    by_cases hc : c = sep
    · rw [show jsSplitChar sep (c :: r) = [] :: jsSplitChar sep r from by
        simp [jsSplitChar, hc]]
      have := jsSplitChar_ne_nil sep r
      have : 1 ≤ (jsSplitChar sep r).length := by
        cases hh : jsSplitChar sep r with
        | nil => exact absurd hh this
        | cons a b => simp
      simp only [List.length_cons]
      omega
    · have hmr : sep ∈ r := by
        rcases List.mem_cons.mp hm with h1 | h1
        · exact absurd h1.symm hc
        · exact h1
      rw [show jsSplitChar sep (c :: r) =
          (match jsSplitChar sep r with
           | h :: t => (c :: h) :: t
           | [] => [[c]]) from by simp [jsSplitChar, hc]]
      have h2 := ih hmr
      cases hh : jsSplitChar sep r with
      | nil => exact absurd hh (jsSplitChar_ne_nil sep r)
      | cons a b =>
        rw [hh] at h2
        simp only [List.length_cons] at h2 ⊢
        omega

theorem jsSplitChar_getLast_append (sep : Char) (d : List Char)
    (hd : ∀ c ∈ d, c ≠ sep) :
    ∀ a : List Char, (jsSplitChar sep (a ++ sep :: d)).getLast? = some d := by
  intro a
  induction a with
  | nil =>
    simp only [List.nil_append]
    rw [show jsSplitChar sep (sep :: d) = [] :: jsSplitChar sep d from by
      simp [jsSplitChar]]
    rw [jsSplitChar_no_sep sep d hd]
    rfl
  | cons c a' ih =>
    by_cases hc : c = sep
    · rw [show jsSplitChar sep ((c :: a') ++ sep :: d) =
          [] :: jsSplitChar sep (a' ++ sep :: d) from by simp [jsSplitChar, hc]]
      cases hh : jsSplitChar sep (a' ++ sep :: d) with
      | nil => exact absurd hh (jsSplitChar_ne_nil sep _)
      | cons x xs =>
        rw [hh] at ih
        rw [List.getLast?_cons_cons]
        exact ih
    · rw [show jsSplitChar sep ((c :: a') ++ sep :: d) =
          (match jsSplitChar sep (a' ++ sep :: d) with
           | h :: t => (c :: h) :: t
           | [] => [[c]]) from by simp [jsSplitChar, hc]]
      have hlen := jsSplitChar_len_two sep (a' ++ sep :: d)
        (by simp [List.mem_append])
      cases hh : jsSplitChar sep (a' ++ sep :: d) with
      | nil => exact absurd hh (jsSplitChar_ne_nil sep _)
      | cons x xs =>
        rw [hh] at ih hlen
        cases xs with
        | nil => simp at hlen
        | cons y ys =>
          rw [List.getLast?_cons_cons] at ih ⊢
          exact ih



theorem takeWhile_all (p : Char → Bool) :
    ∀ l : List Char, (∀ c ∈ l, p c = true) → l.takeWhile p = l := by
  intro l
  induction l with
  | nil => intro _; rfl
  | cons c r ih =>
    intro h
    rw [List.takeWhile_cons, if_pos (h c (List.mem_cons_self c r)),
      ih (fun x hx => h x (List.mem_cons_of_mem c hx))]

theorem digit_ne (c : Char) (hc : c.isDigit = true) :
    c ≠ ' ' ∧ c ≠ '\t' ∧ c ≠ '\n' ∧ c ≠ '\r' ∧ c ≠ '-' ∧ c ≠ '+' ∧
      c ≠ 'x' ∧ c ≠ 'X' ∧ c ≠ ':' := by
  refine ⟨?_, ?_, ?_, ?_, ?_, ?_, ?_, ?_, ?_⟩ <;>
    (intro h; subst h; exact absurd hc (by decide))

theorem jsParseIntChars_digits (d : List Char) (hne : d ≠ [])
    (hdig : ∀ c ∈ d, c.isDigit = true) :
    jsParseIntChars d = some ((natOfDigits d : Nat) : Int) := by
  obtain ⟨c0, r, rfl⟩ := List.exists_cons_of_ne_nil hne
  have hc0 : c0.isDigit = true := hdig c0 (List.mem_cons_self c0 r)
  obtain ⟨h1, h2, h3, h4, h5, h6, _, _, _⟩ := digit_ne c0 hc0
  have hsp : isJsSpace c0 = false := by simp [isJsSpace, h1, h2, h3, h4]
  have hdw : (c0 :: r).dropWhile isJsSpace = c0 :: r := by
    rw [List.dropWhile_cons, hsp]
    simp
  have htw : (c0 :: r).takeWhile Char.isDigit = c0 :: r := takeWhile_all _ _ hdig
  have hhex : isHexPrefixed (c0 :: r) = false := by
    cases r with
    | nil => rfl
    | cons c1 r' =>
      have hc1 : c1.isDigit = true := hdig c1 (by simp)
      obtain ⟨_, _, _, _, _, _, hx, hX, _⟩ := digit_ne c1 hc1
      simp [isHexPrefixed, hx, hX]
  simp only [jsParseIntChars, hdw, if_neg h5, if_neg h6]
  simp only [hhex, Bool.false_eq_true, if_false, htw]
  have hds : ¬ (c0 :: r = ([] : List Char)) := by simp
  rw [if_neg hds]
  simp



theorem getLastD_mem {α : Type} (d : α) : ∀ l : List α, l ≠ [] → l.getLastD d ∈ l := by
  intro l
  induction l with
  | nil => intro h; exact absurd rfl h
  | cons a r ih =>
    intro _
    cases r with
    | nil => simp [List.getLastD]
    | cons b r' =>
      have hmem := ih (by simp)
      rw [show (a :: b :: r').getLastD d = (b :: r').getLastD d from by
        simp [List.getLastD]]
      exact List.mem_cons_of_mem a hmem

/-- C6 (amended): `resolveFileAndLine` is total (never raises; the
embedding returns a `Position` for every input) and the returned line is
never `0`; the value is characterized branch by branch.  Early return (no
corpus search): the line is exactly the explicit parsed line.  Search ran
and the corpus has no match: the line is `explicit-or-1`, so it is `1`
whenever no explicit line is given (and the explicit value whenever it
parses to a non-zero integer).  Search ran and the corpus matched: the last
match ends in a colon and a non-empty digit token — the token the source
pops off the last match — and the line is `-1` *exactly when* that token
parses to `0`, otherwise it is that token's positive value.  This refutes
the claim's wording that `-1` means the search failed to yield a parseable
line — see `C6_counterexample`. -/
theorem C6_line_characterization (file line : Option String) (className output : String) :
    (resolveFileAndLine file line className output).line ≠ 0 ∧
    ((resolveFileAndLineX file line className output).2 = false →
      safeParseInt line = some (resolveFileAndLine file line className output).line) ∧
    ((resolveFileAndLineX file line className output).2 = true →
      jsMatchAll (regexUnescape (escapedFileNameOf (resolvedFileName0 file className)).data)
          output.data = none →
      (resolveFileAndLine file line className output).line =
          jsOrIntOpt (safeParseInt line) 1 ∧
      (safeParseInt line = none →
        (resolveFileAndLine file line className output).line = 1) ∧
      (∀ n : Int, safeParseInt line = some n → n ≠ 0 →
        (resolveFileAndLine file line className output).line = n)) ∧
    (∀ ms : List (List Char),
      (resolveFileAndLineX file line className output).2 = true →
      jsMatchAll (regexUnescape (escapedFileNameOf (resolvedFileName0 file className)).data)
          output.data = some ms →
      ∃ tok : List Char, tok ≠ [] ∧ (∀ c ∈ tok, c.isDigit = true) ∧
        (jsSplitChar ':' (ms.getLastD [])).getLast? = some tok ∧
        ((resolveFileAndLine file line className output).line = -1 ↔ natOfDigits tok = 0) ∧
        (natOfDigits tok ≠ 0 →
          (resolveFileAndLine file line className output).line =
              ((natOfDigits tok : Nat) : Int) ∧
          0 < (resolveFileAndLine file line className output).line)) := by
  have hsnd := resolveFileAndLineX_snd_eq file line className output
  simp only [resolveFileAndLine, resolveFileAndLineX]
  by_cases hc : resolvedFileName0 file className ≠ "" ∧
      jsTruthyIntOpt (safeParseInt line) = true
  · rw [if_pos hc]
    rw [if_pos hc] at hsnd
    obtain ⟨_, ht⟩ := hc
    cases hl : safeParseInt line with
    | none => rw [hl] at ht; exact absurd ht (by simp [jsTruthyIntOpt])
    | some n =>
      rw [hl] at ht
      have hn : n ≠ 0 := by simpa [jsTruthyIntOpt] using ht
      refine ⟨by simpa [hl] using hn, fun _ => by simp [hl], ?_, ?_⟩
      · intro habs
        simp at habs
      · intro ms habs
        simp at habs
  · rw [if_neg hc]
    rw [if_neg hc] at hsnd
    cases hm : jsMatchAll
        (regexUnescape (escapedFileNameOf (resolvedFileName0 file className)).data)
        output.data with
    | none =>
      dsimp only
      refine ⟨?_, ?_, ?_, ?_⟩
      · cases hl : safeParseInt line with
        | none => simp [jsOrIntOpt]
        | some n =>
          by_cases hz : n = 0
          · simp [jsOrIntOpt, hz]
          · simp [jsOrIntOpt, hz]
      · intro habs
        simp at habs
      · intro _ _
        refine ⟨rfl, ?_, ?_⟩
        · intro hl; simp [hl, jsOrIntOpt]
        · intro n hl hn; simp [hl, jsOrIntOpt, hn]
      · intro ms _ habs
        exact absurd habs (by simp)
    | some ms =>
      dsimp only
      obtain ⟨hne, hspec⟩ := jsMatchAll_spec _ _ ms hm
      obtain ⟨a, d, hEq, hdne, hdig⟩ := hspec _ (getLastD_mem [] ms hne)
      rw [hEq]
      have hcolon : ∀ c ∈ d, c ≠ ':' :=
        fun c hcd => (digit_ne c (hdig c hcd)).2.2.2.2.2.2.2.2
      have hsplit := jsSplitChar_getLast_append ':' d hcolon a
      rw [hsplit]
      dsimp only
      rw [if_neg hdne]
      have hmkne : ¬ (String.mk d = "") := by
        rw [String.ext_iff]
        simpa using hdne
      have hparse : safeParseInt (some (String.mk d)) =
          some ((natOfDigits d : Nat) : Int) := by
        simp only [safeParseInt]
        rw [if_neg hmkne]
        exact jsParseIntChars_digits d hdne hdig
      rw [hparse]
      refine ⟨?_, ?_, ?_, ?_⟩
      · by_cases hz : natOfDigits d = 0
        · simp [jsOrIntOpt, hz]
        · have hzi : ¬ ((natOfDigits d : Nat) : Int) = 0 := by
            simpa using hz
          simp only [jsOrIntOpt, hzi, if_false]
          simpa using hz
      · intro habs
        simp at habs
      · intro _ habs
        exact absurd habs (by simp)
      · intro ms' _ hms'
        have hms : ms' = ms := Option.some_inj.mp hms'.symm
        subst hms
        refine ⟨d, hdne, hdig, ?_, ?_, ?_⟩
        · rw [hEq, hsplit]
        · constructor
          · intro hline
            by_contra hz
            have hzi : ¬ ((natOfDigits d : Nat) : Int) = 0 := by simpa using hz
            rw [show jsOrIntOpt (some ((natOfDigits d : Nat) : Int)) (-1) =
                ((natOfDigits d : Nat) : Int) from by
              simp [jsOrIntOpt, hzi]] at hline
            omega
          · intro hz
            have hzi : ((natOfDigits d : Nat) : Int) = 0 := by simpa using hz
            simp [jsOrIntOpt, hzi]
        · intro hz
          have hzi : ¬ ((natOfDigits d : Nat) : Int) = 0 := by simpa using hz
          constructor
          · simp [jsOrIntOpt, hzi]
          · simp only [jsOrIntOpt, hzi, if_false]
            omega

/-- Refutes C6's `-1` clause as stated: on the corpus `" xa:0"` the search
succeeds and extracts the parseable line token `"0"` (`safeParseInt`
returns `some 0`), yet the returned line is `-1` — not the explicit parsed
line (there is none), not positive, and not `1`. -/
theorem C6_counterexample :
    resolveFileAndLine (some "a") none "C" " xa:0" = ⟨"a", -1⟩ ∧
    jsMatchAll (regexUnescape (escapedFileNameOf "a").data) " xa:0".data =
      some [" xa:0".data] ∧
    safeParseInt (some "0") = some 0 := by
  refine ⟨by decide, by decide, by decide⟩

/-- Witness for C2 at the default configuration with `annotationsLimit = 1`
and two concrete failing cases. -/
theorem C2_cap_witness :
    (parseFile sampleEnv sampleCfgLimit1
        (some (mkCasesReport (JVal.arr [caseFailT, caseFailU])))).totalCount = 1 ∧
    (parseFile sampleEnv sampleCfgLimit1
        (some (mkCasesReport (JVal.arr [caseFailT, caseFailU])))).annotations.length = 1 ∧
    countFailures (parseFile sampleEnv sampleCfgLimit1
        (some (mkCasesReport (JVal.arr [caseFailT, caseFailU])))).annotations = 1 ∧
    limitReached (-1) false [] = false ∧
    limitCount true [] = ([] : List Annotation ).length := by
  have h := C2_cap_enforcement sampleEnv sampleCfgLimit1 caseFailT caseFailU
  obtain ⟨h1, h2, h3⟩ := h
  obtain ⟨a1, a2, a3⟩ := h1 rfl rfl (by decide) (by decide)
  exact ⟨a1, a2, a3, h2 (-1) false [] (by omega), h3 []⟩

/-- Witness for C5 at a concrete case with a failure payload and
`status="ignored"`. -/
theorem C5_skip_witness :
    (parseFile sampleEnv sampleCfg (some (mkCasesReport (JVal.single caseIgnored)))).skipped = 1 ∧
    (parseFile sampleEnv sampleCfg (some (mkCasesReport (JVal.single caseIgnored)))).totalCount = 1 ∧
    countFailures (parseFile sampleEnv sampleCfg
        (some (mkCasesReport (JVal.single caseIgnored)))).annotations = 0 := by
  have h := (C5_skip_precedence sampleEnv sampleCfg "" "" []).2 caseIgnored
    (by decide) (by decide)
  exact ⟨h.1, h.2.1, h.2.2.1⟩

/-- Witness for C4's amended early-return direction at a concrete input:
file `a.java` and line `"7"` return immediately, ignoring a corpus that
would have produced line 3. -/
theorem C4_early_witness :
    (resolveFileAndLineX (some "a.java") (some "7") "C" " x other:3").2 = false ∧
    resolveFileAndLine (some "a.java") (some "7") "C" " x other:3" = ⟨"a.java", 7⟩ := by
  have h := C4_early_return_iff (some "a.java") (some "7") "C" " x other:3"
  have h2 : (resolveFileAndLineX (some "a.java") (some "7") "C" " x other:3").2 = false :=
    h.1.mpr (by decide)
  exact ⟨h2, by simpa using h.2 h2⟩


theorem suiteFuel_pos (s : XSuite) : 1 ≤ suiteFuel s := by
  cases s with
  | mk a tsf tss tc =>
    cases tss with
    | none =>
      have h : suiteFuel (XSuite.mk a tsf none tc) = 1 + sfFuel tsf + 0 := rfl
      omega
    | some f =>
      have h : suiteFuel (XSuite.mk a tsf (some f) tc) = 1 + sfFuel tsf + sfFuel f := rfl
      omega

theorem mem_sfListFuel : ∀ (xs : List (Option XSuite)) (ts : XSuite),
    some ts ∈ xs → suiteFuel ts ≤ sfListFuel xs := by
  intro xs
  induction xs with
  | nil => intro ts h; simp at h
  | cons hd rest ih =>
    intro ts h
    rcases List.mem_cons.mp h with h1 | h1
    · rw [← h1]
      show suiteFuel ts ≤ suiteFuel ts + sfListFuel rest
      omega
    · have hr := ih ts h1
      cases hd with
      | none => exact hr
      | some u =>
        show suiteFuel ts ≤ suiteFuel u + sfListFuel rest
        omega

theorem mem_suiteField_fuel (f : SuiteField) (ts : XSuite) :
    (some ts ∈ (match f with
      | SuiteField.undef => ([none] : List (Option XSuite))
      | SuiteField.single t => [some t]
      | SuiteField.arr xs => xs)) → suiteFuel ts ≤ sfFuel f := by
  intro h
  cases f with
  | undef => simp at h
  | single t =>
    simp at h
    subst h
    exact le_of_eq rfl
  | arr xs =>
    exact mem_sfListFuel xs ts h

theorem mem_normalizedSuites_fuel_lt (s : XSuite) (ts : XSuite)
    (h : some ts ∈ normalizedSuites s) : suiteFuel ts < suiteFuel s := by
  cases s with
  | mk a tsf tss tc =>
    cases tss with
    | none =>
      have hs : suiteFuel (XSuite.mk a tsf none tc) = 1 + sfFuel tsf + 0 := rfl
      cases tsf with
      | undef => simp [normalizedSuites, XSuite.testsuite, XSuite.testsuites] at h
      | single t =>
        simp [normalizedSuites, XSuite.testsuite] at h
        subst h
        have he : sfFuel (SuiteField.single ts) = suiteFuel ts := rfl
        omega
      | arr xs =>
        simp [normalizedSuites, XSuite.testsuite] at h
        have hle := mem_sfListFuel xs ts h
        have he : sfFuel (SuiteField.arr xs) = sfListFuel xs := rfl
        omega
    | some f =>
      have hs : suiteFuel (XSuite.mk a tsf (some f) tc) = 1 + sfFuel tsf + sfFuel f := rfl
      cases tsf with
      | undef =>
        have hm : some ts ∈ (match f with
            | SuiteField.undef => ([none] : List (Option XSuite))
            | SuiteField.single t => [some t]
            | SuiteField.arr xs => xs) := by
          cases f with
          | undef => simp [normalizedSuites, XSuite.testsuite, XSuite.testsuites] at h
          | single t =>
            simpa [normalizedSuites, XSuite.testsuite, XSuite.testsuites] using h
          | arr xs =>
            simpa [normalizedSuites, XSuite.testsuite, XSuite.testsuites] using h
        have hle := mem_suiteField_fuel f ts hm
        omega
      | single t =>
        simp [normalizedSuites, XSuite.testsuite] at h
        subst h
        have he : sfFuel (SuiteField.single ts) = suiteFuel ts := rfl
        omega
      | arr xs =>
        simp [normalizedSuites, XSuite.testsuite] at h
        have hle := mem_sfListFuel xs ts h
        have he : sfFuel (SuiteField.arr xs) = sfListFuel xs := rfl
        omega

theorem suitesLoopF_congr (env : Env) (cfg : Config)
    (rec1 rec2 : XSuite → String → InternalTestResult) :
    ∀ (l : List (Option XSuite)) (pn : String) (acc : InternalTestResult),
      (∀ ts pn', some ts ∈ l → rec1 ts pn' = rec2 ts pn') →
      suitesLoopF env cfg rec1 l pn acc = suitesLoopF env cfg rec2 l pn acc := by
  intro l
  induction l with
  | nil => intro pn acc _; rfl
  | cons hd rest ih =>
    intro pn acc hrec
    cases hd with
    | none => rfl
    | some ts =>
      have hhd : rec1 ts (computeSuiteName env cfg pn ts) =
          rec2 ts (computeSuiteName env cfg pn ts) :=
        hrec ts _ (List.mem_cons_self _ _)
      have hrest : ∀ ts' pn', some ts' ∈ rest → rec1 ts' pn' = rec2 ts' pn' :=
        fun ts' pn' h => hrec ts' pn' (List.mem_cons_of_mem _ h)
      simp only [suitesLoopF, hhd]
      split
      · exact ih pn _ hrest
      · split
        · rfl
        · generalize (if cfg.checkRetries = true then dedupTestcases (jvList ts.testcase)
            else jvList ts.testcase) = cs
          split
          · rfl
          · exact ih pn _ hrest

theorem parseSuiteGo_fuel_irrelevant (env : Env) (cfg : Config) :
    ∀ (n : Nat) (s : XSuite), suiteFuel s ≤ n →
      ∀ (f1 f2 : Nat) (pn : String), suiteFuel s ≤ f1 → suiteFuel s ≤ f2 →
        parseSuiteGo env cfg f1 s pn = parseSuiteGo env cfg f2 s pn := by
  intro n
  induction n with
  | zero => intro s hs; have := suiteFuel_pos s; omega
  | succ n ih =>
    intro s hs f1 f2 pn h1 h2
    have hp := suiteFuel_pos s
    obtain ⟨g1, rfl⟩ : ∃ g1, f1 = g1 + 1 := ⟨f1 - 1, by omega⟩
    obtain ⟨g2, rfl⟩ : ∃ g2, f2 = g2 + 1 := ⟨f2 - 1, by omega⟩
    show parseSuiteBody env cfg (parseSuiteGo env cfg g1) s pn =
      parseSuiteBody env cfg (parseSuiteGo env cfg g2) s pn
    unfold parseSuiteBody
    split
    · rfl
    · refine suitesLoopF_congr env cfg _ _ (normalizedSuites s) pn _ ?_
      intro ts pn' hmem
      have hlt := mem_normalizedSuites_fuel_lt s ts hmem
      exact ih ts (by omega) g1 g2 pn' (by omega) (by omega)

theorem parseSuite_fuel_sufficient (env : Env) (cfg : Config) (s : XSuite)
    (pn : String) (fuel : Nat) (h : suiteFuel s ≤ fuel) :
    parseSuiteGo env cfg fuel s pn = parseSuite env cfg s pn :=
  parseSuiteGo_fuel_irrelevant env cfg (suiteFuel s) s (le_refl _) fuel
    (suiteFuel s) pn h (le_refl _)

end JR
